import Mathlib

/-!
Shallow embedding of the qasm-simulator core (src/quantum/ket.rs,
src/quantum/state.rs, src/gates/gate.rs) and verification of the frozen
claims about it.

Amplitudes in the source are `Complex<f64>`.  Every amplitude the engine
manipulates lies in the subring ℚ[ζ] of ℂ generated by the rationals and
ζ = e^{iπ/4} (the engine only multiplies by -1, by 1/√2 = (ζ - ζ³)/2 and by
e^{±iπ/4}, and adds).  We embed amplitudes as exact elements of that ring,
written a + b·ζ + c·ζ² + d·ζ³ with rational coordinates; squared magnitudes
then lie in ℚ[√2] and all comparisons the code performs (`norm() == 0.0`,
`norm() > 1e-6`) are decidable exactly.  Bridging lemmas relate the encoded
operations to the complex numbers they denote.
-/

namespace QuantumSim

unseal Rat.add Rat.mul Rat.sub Rat.inv Rat.ofScientific

/-- An element `a + b·ζ + c·ζ² + d·ζ³` of ℚ[ζ], ζ = e^{iπ/4}; the exact
form of every amplitude occurring in the simulator. -/
@[ext]
structure Amp where
  c0 : ℚ
  c1 : ℚ
  c2 : ℚ
  c3 : ℚ
deriving DecidableEq, Repr

namespace Amp

/-- Addition: componentwise (complex addition of amplitudes). -/
def add (x y : Amp) : Amp := ⟨x.c0 + y.c0, x.c1 + y.c1, x.c2 + y.c2, x.c3 + y.c3⟩

/-- Negation (multiplication by `-1.0` in the source). -/
def neg (x : Amp) : Amp := ⟨-x.c0, -x.c1, -x.c2, -x.c3⟩

/-- Multiplication, using `ζ⁴ = -1` (negacyclic convolution); complex
multiplication of amplitudes. -/
def mul (x y : Amp) : Amp :=
  ⟨x.c0 * y.c0 - x.c1 * y.c3 - x.c2 * y.c2 - x.c3 * y.c1,
   x.c0 * y.c1 + x.c1 * y.c0 - x.c2 * y.c3 - x.c3 * y.c2,
   x.c0 * y.c2 + x.c1 * y.c1 + x.c2 * y.c0 - x.c3 * y.c3,
   x.c0 * y.c3 + x.c1 * y.c2 + x.c2 * y.c1 + x.c3 * y.c0⟩

instance : Zero Amp := ⟨⟨0, 0, 0, 0⟩⟩
instance : One Amp := ⟨⟨1, 0, 0, 0⟩⟩
instance : Add Amp := ⟨Amp.add⟩
instance : Neg Amp := ⟨Amp.neg⟩
instance : Mul Amp := ⟨Amp.mul⟩

theorem zero_def : (0 : Amp) = ⟨0, 0, 0, 0⟩ := rfl
theorem one_def : (1 : Amp) = ⟨1, 0, 0, 0⟩ := rfl
theorem add_def (x y : Amp) : x + y = ⟨x.c0 + y.c0, x.c1 + y.c1, x.c2 + y.c2, x.c3 + y.c3⟩ := rfl
theorem neg_def (x : Amp) : -x = ⟨-x.c0, -x.c1, -x.c2, -x.c3⟩ := rfl
theorem mul_def (x y : Amp) : x * y =
    ⟨x.c0 * y.c0 - x.c1 * y.c3 - x.c2 * y.c2 - x.c3 * y.c1,
     x.c0 * y.c1 + x.c1 * y.c0 - x.c2 * y.c3 - x.c3 * y.c2,
     x.c0 * y.c2 + x.c1 * y.c1 + x.c2 * y.c0 - x.c3 * y.c3,
     x.c0 * y.c3 + x.c1 * y.c2 + x.c2 * y.c1 + x.c3 * y.c0⟩ := rfl

instance : CommRing Amp where
  add_assoc x y z := by ext <;> simp [add_def] <;> ring
  zero_add x := by ext <;> simp [add_def, zero_def]
  add_zero x := by ext <;> simp [add_def, zero_def]
  add_comm x y := by ext <;> simp [add_def] <;> ring
  neg_add_cancel x := by ext <;> simp [add_def, neg_def, zero_def]
  mul_assoc x y z := by ext <;> simp [mul_def] <;> ring
  one_mul x := by ext <;> simp [mul_def, one_def]
  mul_one x := by ext <;> simp [mul_def, one_def]
  left_distrib x y z := by ext <;> simp [mul_def, add_def] <;> ring
  right_distrib x y z := by ext <;> simp [mul_def, add_def] <;> ring
  zero_mul x := by ext <;> simp [mul_def, zero_def]
  mul_zero x := by ext <;> simp [mul_def, zero_def]
  mul_comm x y := by ext <;> simp [mul_def] <;> ring
  nsmul := nsmulRec
  zsmul := zsmulRec

/-- The squared magnitude `|z|²` of an amplitude, as an exact element
`p + q·√2` of ℚ[√2], returned as the pair `(p, q)`.  For
z = a + b·ζ + c·ζ² + d·ζ³ one has Re z = a + (b-d)/√2, Im z = c + (b+d)/√2,
hence |z|² = (a²+b²+c²+d²) + (a(b-d) + c(b+d))·√2. -/
def normSq (z : Amp) : ℚ × ℚ :=
  (z.c0 ^ 2 + z.c1 ^ 2 + z.c2 ^ 2 + z.c3 ^ 2,
   z.c0 * (z.c1 - z.c3) + z.c2 * (z.c1 + z.c3))

/-- Decides `0 < s + q·√2` for rationals `s`, `q`. -/
def rs2Pos (s q : ℚ) : Bool :=
  if 0 ≤ s then
    if 0 ≤ q then decide (0 < s ∨ 0 < q) else decide (2 * q ^ 2 < s ^ 2)
  else
    if 0 ≤ q then decide (s ^ 2 < 2 * q ^ 2) else false

/-- Decides `r < p + q·√2` where the pair `x = (p, q)` denotes `p + q·√2`. -/
def pairGt (x : ℚ × ℚ) (r : ℚ) : Bool := rs2Pos (x.1 - r) x.2

/-- Decides `p + q·√2 < r` where the pair `x = (p, q)` denotes `p + q·√2`. -/
def pairLt (x : ℚ × ℚ) (r : ℚ) : Bool := rs2Pos (r - x.1) (-x.2)

/-- Embeds the source comparison `z.norm() > r` (for `0 ≤ r`): compares the
exact squared magnitude against `r²`. -/
def normGt (z : Amp) (r : ℚ) : Bool := pairGt (normSq z) (r ^ 2)

/-- Embeds the source comparison `z.norm() < r` (for `0 ≤ r`). -/
def normLt (z : Amp) (r : ℚ) : Bool := pairLt (normSq z) (r ^ 2)

/-- Correctness of the sign procedure for `s + q·√2` against the reals. -/
theorem rs2Pos_iff (s q : ℚ) :
    rs2Pos s q = true ↔ (0 : ℝ) < (s : ℝ) + (q : ℝ) * Real.sqrt 2 := by
  have h2 : Real.sqrt 2 ^ 2 = 2 := Real.sq_sqrt (by norm_num)
  have hpos : (0 : ℝ) < Real.sqrt 2 := Real.sqrt_pos.mpr (by norm_num)
  unfold rs2Pos
  by_cases hs : (0 : ℚ) ≤ s <;> by_cases hq : (0 : ℚ) ≤ q
  · -- 0 ≤ s, 0 ≤ q : positive iff one of them is
    have hs' : (0 : ℝ) ≤ (s : ℝ) := by exact_mod_cast hs
    have hq' : (0 : ℝ) ≤ (q : ℝ) := by exact_mod_cast hq
    simp only [hs, hq, if_true, decide_eq_true_eq]
    constructor
    · rintro (h | h)
      · have : (0 : ℝ) < (s : ℝ) := by exact_mod_cast h
        nlinarith
      · have : (0 : ℝ) < (q : ℝ) := by exact_mod_cast h
        nlinarith
    · intro h
      by_contra hcon
      push_neg at hcon
      have hs0 : s = 0 := le_antisymm hcon.1 hs
      have hq0 : q = 0 := le_antisymm hcon.2 hq
      rw [hs0, hq0] at h
      simp at h
  · -- 0 ≤ s, q < 0 : positive iff s² > 2q²
    have hs' : (0 : ℝ) ≤ (s : ℝ) := by exact_mod_cast hs
    have hq' : (q : ℝ) < 0 := by exact_mod_cast lt_of_not_le hq
    simp only [hs, hq, if_true, if_false, decide_eq_true_eq]
    constructor
    · intro h
      have h' : 2 * (q : ℝ) ^ 2 < (s : ℝ) ^ 2 := by exact_mod_cast h
      have hsp : (0 : ℝ) < (s : ℝ) := by nlinarith
      have hkey : ((s : ℝ) + (q : ℝ) * Real.sqrt 2) * ((s : ℝ) - (q : ℝ) * Real.sqrt 2) =
          (s : ℝ) ^ 2 - 2 * (q : ℝ) ^ 2 := by
        have : ((q : ℝ) * Real.sqrt 2) ^ 2 = 2 * (q : ℝ) ^ 2 := by
          rw [mul_pow, h2]; ring
        nlinarith [this]
      have hden : (0 : ℝ) < (s : ℝ) - (q : ℝ) * Real.sqrt 2 := by nlinarith
      nlinarith
    · intro h
      have hge : -(q : ℝ) * Real.sqrt 2 < (s : ℝ) := by nlinarith
      have : 2 * (q : ℝ) ^ 2 < (s : ℝ) ^ 2 := by
        have hx : (0 : ℝ) ≤ -(q : ℝ) * Real.sqrt 2 := by nlinarith
        nlinarith [mul_pow (-(q : ℝ)) (Real.sqrt 2) 2]
      exact_mod_cast this
  · -- s < 0, 0 ≤ q : positive iff 2q² > s²
    have hs' : (s : ℝ) < 0 := by exact_mod_cast lt_of_not_le hs
    have hq' : (0 : ℝ) ≤ (q : ℝ) := by exact_mod_cast hq
    simp only [hs, hq, if_true, if_false, decide_eq_true_eq]
    constructor
    · intro h
      have h' : (s : ℝ) ^ 2 < 2 * (q : ℝ) ^ 2 := by exact_mod_cast h
      have hqp : (0 : ℝ) < (q : ℝ) := by nlinarith
      have hkey : ((q : ℝ) * Real.sqrt 2) ^ 2 = 2 * (q : ℝ) ^ 2 := by
        rw [mul_pow, h2]; ring
      have : -(s : ℝ) < (q : ℝ) * Real.sqrt 2 := by
        nlinarith [mul_pos hqp hpos]
      linarith
    · intro h
      have hkey : ((q : ℝ) * Real.sqrt 2) ^ 2 = 2 * (q : ℝ) ^ 2 := by
        rw [mul_pow, h2]; ring
      have : (s : ℝ) ^ 2 < 2 * (q : ℝ) ^ 2 := by
        nlinarith [mul_nonneg hq' hpos.le]
      exact_mod_cast this
  · -- s < 0, q < 0 : never positive
    have hs' : (s : ℝ) < 0 := by exact_mod_cast lt_of_not_le hs
    have hq' : (q : ℝ) < 0 := by exact_mod_cast lt_of_not_le hq
    simp only [hs, hq, if_false]
    constructor
    · intro h
      simp at h
    · intro h
      exfalso
      nlinarith [mul_pos (neg_pos.mpr hq') hpos]

/-- The squared magnitude is zero exactly on the zero amplitude. -/
theorem normSq_eq_zero_iff (z : Amp) : normSq z = 0 ↔ z = 0 := by
  constructor
  · intro h
    have h1 : z.c0 ^ 2 + z.c1 ^ 2 + z.c2 ^ 2 + z.c3 ^ 2 = 0 := congrArg Prod.fst h
    have h0 : z.c0 = 0 := by nlinarith [sq_nonneg z.c0, sq_nonneg z.c1, sq_nonneg z.c2, sq_nonneg z.c3]
    have hA : z.c1 = 0 := by nlinarith [sq_nonneg z.c0, sq_nonneg z.c1, sq_nonneg z.c2, sq_nonneg z.c3]
    have hB : z.c2 = 0 := by nlinarith [sq_nonneg z.c0, sq_nonneg z.c1, sq_nonneg z.c2, sq_nonneg z.c3]
    have hC : z.c3 = 0 := by nlinarith [sq_nonneg z.c0, sq_nonneg z.c1, sq_nonneg z.c2, sq_nonneg z.c3]
    ext <;> simp [h0, hA, hB, hC, zero_def]
  · intro h
    subst h
    simp [normSq, zero_def]

/-- The constant `1/√2 = (ζ - ζ³)/2` used by the Hadamard branch
(`1.0 / 2.0_f64.sqrt()` in the source). -/
def invSqrt2 : Amp := ⟨0, 1/2, 0, -(1/2)⟩

/-- The phase `e^{iπ/4} = ζ` used by the T gate. -/
def zeta : Amp := ⟨0, 1, 0, 0⟩

/-- The phase `e^{-iπ/4} = -ζ³` used by the TDgr gate. -/
def zetaConj : Amp := ⟨0, 0, 0, -1⟩

end Amp

/-- A basis ket: complex amplitude plus the classical bit pattern
(`src/quantum/ket.rs`, `struct Ket`).  The bit vector is embedded as a list
of booleans, index 0 first, matching `BitVec` iteration order. -/
@[ext]
structure Ket where
  amplitude : Amp
  bits : List Bool
deriving DecidableEq, Repr

namespace Ket

/-- `Ket::get`: returns the bit at `index`; the out-of-bounds panic is
embedded as `none`. -/
def get (k : Ket) (index : ℕ) : Option Bool := k.bits[index]?

/-- `Ket::flip`: toggles the bit at `index` (via `get`, then `set`); the
out-of-bounds panic is embedded as `none`. -/
def flip (k : Ket) (index : ℕ) : Option Ket :=
  match k.get index with
  | some cur => some ⟨k.amplitude, k.bits.set index (!cur)⟩
  | none => none

/-- `Ket::new_zero_ket`: all bits 0, amplitude 1. -/
def new_zero_ket (num_qubits : ℕ) : Ket := ⟨1, List.replicate num_qubits false⟩

/-- Modelled from the spec: `Ket::are_equivalent` lives in
`src/quantum/common.rs`, which is not part of the sources; §4.4 of the spec
says kets are equivalent iff the bit patterns match and the amplitudes match
within numerical tolerance (magnitude of the difference below epsilon);
§9 fixes the tolerance 1e-6. -/
def are_equivalent (k1 k2 : Ket) : Bool :=
  decide (k1.bits = k2.bits) && Amp.normLt (k1.amplitude + -k2.amplitude) (1/1000000)

end Ket

/-- Lexicographic order on bit patterns (index 0 first), embedding the
`bitvec` `Ord` used by `sort_by(|a, b| a.bit_vec().cmp(&b.bit_vec()))`. -/
def patLe : List Bool → List Bool → Bool
  | [], _ => true
  | _ :: _, [] => false
  | a :: as, b :: bs => if a = b then patLe as bs else (!a && b)

/-- The comparator used by `sort_by(|a, b| a.bit_vec().cmp(&b.bit_vec()))`,
as a boolean "less or equal" on kets. -/
def ketLe (a b : Ket) : Bool := patLe a.bits b.bits

/-- A sparse state: a collection of kets plus the qubit count
(`src/quantum/state.rs`, `struct State`).  The `HashSet<Ket>` is embedded
as a list; hash-set iteration order becomes list order. -/
@[ext]
structure State where
  kets : List Ket
  num_qubits : ℕ
deriving DecidableEq, Repr

namespace State

/-- `State::new`: empty state of the given width. -/
def new (num_qubits : ℕ) : State := ⟨[], num_qubits⟩

/-- Helper for `add_or_insert`: the `take`/`insert` on the `HashSet` keyed
by bits, embedded on the list.  If a ket with the same bits is stored, add
the amplitudes and keep the entry only when the magnitude exceeds 1e-6;
otherwise append the ket. -/
def insertKets (ket : Ket) : List Ket → List Ket
  | [] => [ket]
  | k :: rest =>
    if k.bits = ket.bits then
      if Amp.normGt (k.amplitude + ket.amplitude) (1/1000000) then
        ⟨k.amplitude + ket.amplitude, k.bits⟩ :: rest
      else
        rest
    else
      k :: insertKets ket rest

/-- `State::add_or_insert`: ignore a zero-magnitude amplitude, otherwise
accumulate into an existing entry with the same bits (dropping the entry
when the accumulated magnitude is not above 1e-6) or insert fresh. -/
def add_or_insert (s : State) (ket : Ket) : State :=
  if Amp.normSq ket.amplitude = 0 then s
  else ⟨insertKets ket s.kets, s.num_qubits⟩

/-- `State::remove`: removes the entry equal to `ket`; `Ket` equality is
bits-only, so this deletes the (first) entry with the same bit pattern. -/
def remove (s : State) (ket : Ket) : State :=
  ⟨s.kets.eraseP (fun k => decide (k.bits = ket.bits)), s.num_qubits⟩

/-- `State::remove_zero_amplitude_kets`: retains kets with `norm() > 0.0`,
i.e. nonzero squared magnitude. -/
def remove_zero_amplitude_kets (s : State) : State :=
  ⟨s.kets.filter (fun k => decide (¬ Amp.normSq k.amplitude = 0)), s.num_qubits⟩

/-- Construction failures of `from_ket_vec` (both are panics in the
source; the empty-list case is an out-of-bounds indexing of `kets[0]`, the
other a width-mismatch panic). -/
inductive ConstructError
  | indexOutOfBounds
  | widthMismatch
deriving DecidableEq, Repr

/-- `State::from_ket_vec`: reads `kets[0]` (out-of-bounds on an empty
vector), checks all kets share its width, then folds `add_or_insert` over
the list starting from the empty state. -/
def from_ket_vec (kets : List Ket) : Except ConstructError State :=
  match kets with
  | [] => .error .indexOutOfBounds
  | k0 :: _ =>
    if kets.all (fun k => decide (k.bits.length = k0.bits.length)) then
      .ok (kets.foldl add_or_insert (State.new k0.bits.length))
    else
      .error .widthMismatch

/-- `impl Equivalency for State`: width check, ket-count check, then sort
both ket collections by bit pattern and compare positionally with the
tolerant ket equivalence. -/
def are_equivalent (s1 s2 : State) : Bool :=
  if s1.num_qubits ≠ s2.num_qubits then false
  else if s1.kets.length ≠ s2.kets.length then false
  else
    let v1 := s1.kets.mergeSort ketLe
    let v2 := s2.kets.mergeSort ketLe
    (v1.zip v2).all (fun p => p.1.are_equivalent p.2)

/-- `impl PartialEq for State`: equal qubit counts and equal `HashSet`s of
kets.  Set equality uses the set's element equality, and `Ket`'s
`PartialEq` compares only the bits, so amplitudes are ignored here. -/
def eq (s1 s2 : State) : Bool :=
  decide (s1.num_qubits = s2.num_qubits) &&
    (decide (s1.kets.length = s2.kets.length) &&
      s1.kets.all (fun k => s2.kets.any (fun k2 => decide (k2.bits = k.bits))))

end State

/-- The closed gate set (`src/gates/gate.rs`, `enum Gate`). -/
inductive Gate
  | H (target : ℕ)
  | X (target : ℕ)
  | T (target : ℕ)
  | TDgr (target : ℕ)
  | CX (control : ℕ) (target : ℕ)
  | Toffoli (controls : List ℕ) (target : ℕ)
  | Composite (gates : List Gate)
deriving Repr

/-- `enum GateKetResult`: one ket, several kets, or the never-produced
placeholder variant. -/
inductive GateKetResult
  | ket (k : Ket)
  | kets (ks : List Ket)
  | notImplemented (msg : String)
deriving DecidableEq, Repr

/-- Flattens a `GateKetResult` to the list of produced kets; receiving the
placeholder variant is a panic in both consumers, embedded as `none`. -/
def resultKets : GateKetResult → Option (List Ket)
  | .ket k => some [k]
  | .kets ks => some ks
  | .notImplemented _ => none

/-- The control-scanning loop of the Toffoli branch: reads each control in
order (out-of-range panics as `none`) and reports whether all are set,
stopping at the first clear control. -/
def checkControls (k : Ket) : List ℕ → Option Bool
  | [] => some true
  | c :: rest =>
    match k.get c with
    | some b => if b then checkControls k rest else some false
    | none => none

/-- The inner `while let Some(ket) = cur_kets.pop()` loop of the Composite
branch, generic in the per-ket application function: the current kets are
consumed from the back (hence applied to the reversed list here) and each
result is appended to the accumulating output vector. -/
def stageRevF (f : Ket → Option GateKetResult) : List Ket → Option (List Ket)
  | [] => some []
  | k :: rest =>
    match f k with
    | some r =>
      match resultKets r, stageRevF f rest with
      | some outL, some restL => some (outL ++ restL)
      | _, _ => none
    | none => none

/-- The outer loop of the Composite branch, generic in the per-ket
application function: applies each constituent gate in order to the whole
current ket collection. -/
def runStagesF (f : Gate → Ket → Option GateKetResult) :
    List Gate → List Ket → Option (List Ket)
  | [], cur => some cur
  | g :: rest, cur =>
    match stageRevF (f g) cur.reverse with
    | some next => runStagesF f rest next
    | none => none

mutual

/-- Structural size of a gate, bounding the Composite nesting depth. -/
def gateSize : Gate → ℕ
  | .H _ => 1
  | .X _ => 1
  | .T _ => 1
  | .TDgr _ => 1
  | .CX _ _ => 1
  | .Toffoli _ _ => 1
  | .Composite gs => 1 + gateListSize gs

/-- Structural size of a gate list. -/
def gateListSize : List Gate → ℕ
  | [] => 0
  | g :: rest => gateSize g + gateListSize rest + 1

end

theorem gateSize_lt_of_mem {g : Gate} {gs : List Gate} (h : g ∈ gs) :
    gateSize g < gateListSize gs := by
  induction gs with
  | nil => cases h
  | cons g2 rest ih =>
    unfold gateListSize
    rcases List.mem_cons.mp h with h2 | h2
    · rw [h2]
      omega
    · have := ih h2
      omega

/-- `apply_gate_to_ket` with an explicit structural fuel bounding the
nesting depth of Composite gates, so that the recursion is structural (on
the fuel) and hence computes by kernel reduction; `apply_gate_to_ket`
below instantiates the fuel with a sufficient bound.  The bodies mirror
`apply_gate_to_ket` in src/gates/gate.rs; panics (out-of-range bit access,
unimplemented-gate placeholder) are embedded as `none`. -/
def applyKetFuel : ℕ → Gate → Ket → Option GateKetResult
  | 0, _, _ => none
  | _ + 1, .H target, ket =>
    match ket.flip target, ket.get target with
    | some flipped, some b =>
      some (.kets
        [⟨(if b then ket.amplitude * (-1) else ket.amplitude) * Amp.invSqrt2, ket.bits⟩,
         ⟨flipped.amplitude * Amp.invSqrt2, flipped.bits⟩])
    | _, _ => none
  | _ + 1, .X target, ket =>
    match ket.flip target with
    | some k => some (.ket k)
    | none => none
  | _ + 1, .T target, ket =>
    match ket.get target with
    | some b => some (.ket (if b then ⟨ket.amplitude * Amp.zeta, ket.bits⟩ else ket))
    | none => none
  | _ + 1, .TDgr target, ket =>
    match ket.get target with
    | some b => some (.ket (if b then ⟨ket.amplitude * Amp.zetaConj, ket.bits⟩ else ket))
    | none => none
  | _ + 1, .CX control target, ket =>
    match ket.get control with
    | some c =>
      if c then
        match ket.flip target with
        | some k => some (.ket k)
        | none => none
      else some (.ket ket)
    | none => none
  | _ + 1, .Toffoli controls target, ket =>
    match checkControls ket controls with
    | some allSet =>
      if allSet then
        match ket.flip target with
        | some k => some (.ket k)
        | none => none
      else some (.ket ket)
    | none => none
  | fuel + 1, .Composite gates, ket =>
    match runStagesF (applyKetFuel fuel) gates [ket] with
    | some [k] => some (.ket k)
    | some l => some (.kets l)
    | none => none

/-- `apply_gate_to_ket` (src/gates/gate.rs): the fuel `gateSize g + 1`
always exceeds the Composite nesting depth, so the fuelled evaluator never
runs dry (`applyKetFuel_congr` below makes the bound irrelevant). -/
def apply_gate_to_ket (g : Gate) (ket : Ket) : Option GateKetResult :=
  applyKetFuel (gateSize g + 1) g ket

/-- The Composite stage loops instantiated with `apply_gate_to_ket`. -/
def stageRev (g : Gate) (ks : List Ket) : Option (List Ket) :=
  stageRevF (apply_gate_to_ket g) ks

/-- The Composite outer loop instantiated with `apply_gate_to_ket`. -/
def runStages (gs : List Gate) (cur : List Ket) : Option (List Ket) :=
  runStagesF apply_gate_to_ket gs cur

theorem stageRevF_congr {f1 f2 : Ket → Option GateKetResult}
    (h : ∀ k, f1 k = f2 k) : ∀ ks, stageRevF f1 ks = stageRevF f2 ks := by
  intro ks
  induction ks with
  | nil => rfl
  | cons k rest ih =>
    unfold stageRevF
    rw [h k, ih]

theorem runStagesF_congr {f1 f2 : Gate → Ket → Option GateKetResult} :
    ∀ (gs : List Gate) (cur : List Ket), (∀ g ∈ gs, ∀ k, f1 g k = f2 g k) →
      runStagesF f1 gs cur = runStagesF f2 gs cur := by
  intro gs
  induction gs with
  | nil => intro cur _; rfl
  | cons g rest ih =>
    intro cur h
    unfold runStagesF
    rw [stageRevF_congr (h g (by simp)) cur.reverse]
    cases stageRevF (f2 g) cur.reverse with
    | none => rfl
    | some next => exact ih next (fun g2 hg2 k => h g2 (by simp [hg2]) k)

/-- The fuel is irrelevant once it exceeds the gate size. -/
theorem applyKetFuel_congr : ∀ (fuel1 fuel2 : ℕ) (g : Gate), gateSize g < fuel1 →
    gateSize g < fuel2 → ∀ k, applyKetFuel fuel1 g k = applyKetFuel fuel2 g k := by
  intro fuel1
  induction fuel1 with
  | zero => intro fuel2 g hg; omega
  | succ m1 ih =>
    intro fuel2 g hg1 hg2 k
    cases fuel2 with
    | zero => omega
    | succ m2 =>
      cases g with
      | H t => rfl
      | X t => rfl
      | T t => rfl
      | TDgr t => rfl
      | CX c t => rfl
      | Toffoli cs t => rfl
      | Composite gs =>
        simp only [applyKetFuel]
        rw [runStagesF_congr gs [k] ?_]
        intro g2 hg2m k2
        have hs1 : gateSize g2 < gateListSize gs := gateSize_lt_of_mem hg2m
        have hs2 : gateSize (Gate.Composite gs) = 1 + gateListSize gs := by
          simp [gateSize]
        exact ih m2 g2 (by omega) (by omega) k2

/-- The Composite branch of `apply_gate_to_ket`, phrased with the loops
instantiated at `apply_gate_to_ket` itself. -/
theorem apply_composite_eq (gs : List Gate) (ket : Ket) :
    apply_gate_to_ket (Gate.Composite gs) ket =
      match runStages gs [ket] with
      | some [k] => some (GateKetResult.ket k)
      | some l => some (GateKetResult.kets l)
      | none => none := by
  unfold apply_gate_to_ket
  simp only [applyKetFuel]
  unfold runStages
  rw [runStagesF_congr gs [ket] ?_]
  intro g2 hg2m k2
  unfold apply_gate_to_ket
  have hs1 : gateSize g2 < gateListSize gs := gateSize_lt_of_mem hg2m
  have hs2 : gateSize (Gate.Composite gs) = 1 + gateListSize gs := by
    simp [gateSize]
  exact applyKetFuel_congr _ _ g2 (by omega) (by omega) k2

/-- The per-ket dispatch loop of `apply_gate_to_state`: folds every
produced ket of every input ket into the fresh state via `add_or_insert`
(panicking, i.e. `none`, on failure). -/
def applyKetsLoop (g : Gate) : List Ket → State → Option State
  | [], acc => some acc
  | k :: rest, acc =>
    match apply_gate_to_ket g k with
    | some r =>
      match resultKets r with
      | some outL => applyKetsLoop g rest (outL.foldl State.add_or_insert acc)
      | none => none
    | none => none

/-- `apply_gate_to_state` (src/gates/gate.rs): builds a fresh state of the
same width and re-inserts every transformed ket. -/
def apply_gate_to_state (s : State) (g : Gate) : Option State :=
  applyKetsLoop g s.kets (State.new s.num_qubits)

/-! ### Basic lemmas about the embedded operations -/

theorem Ket.get_eq_some {k : Ket} {i : ℕ} (h : i < k.bits.length) :
    k.get i = some (k.bits.getD i false) := by
  unfold Ket.get
  rw [List.getElem?_eq_getElem h, List.getD_eq_getElem?_getD, List.getElem?_eq_getElem h]
  rfl

theorem Ket.flip_eq_some {k : Ket} {i : ℕ} (h : i < k.bits.length) :
    k.flip i = some ⟨k.amplitude, k.bits.set i (!k.bits.getD i false)⟩ := by
  unfold Ket.flip
  rw [Ket.get_eq_some h]

theorem Ket.get_eq_none {k : Ket} {i : ℕ} (h : k.bits.length ≤ i) :
    k.get i = none := by
  unfold Ket.get
  exact List.getElem?_eq_none h

theorem Ket.flip_eq_none {k : Ket} {i : ℕ} (h : k.bits.length ≤ i) :
    k.flip i = none := by
  unfold Ket.flip
  rw [Ket.get_eq_none h]

theorem State.insertKets_no_match {ket : Ket} {l : List Ket}
    (h : ∀ x ∈ l, x.bits ≠ ket.bits) : State.insertKets ket l = l ++ [ket] := by
  induction l with
  | nil => rfl
  | cons k rest ih =>
    unfold State.insertKets
    have hk : ¬ k.bits = ket.bits := h k (by simp)
    simp only [hk, if_false]
    rw [ih (fun x hx => h x (by simp [hx]))]
    simp

theorem State.insertKets_found {ket j : Ket} {l1 l2 : List Ket}
    (h1 : ∀ x ∈ l1, x.bits ≠ ket.bits) (hj : j.bits = ket.bits) :
    State.insertKets ket (l1 ++ j :: l2) =
      l1 ++ (if Amp.normGt (j.amplitude + ket.amplitude) (1/1000000) then
          [(⟨j.amplitude + ket.amplitude, j.bits⟩ : Ket)] else []) ++ l2 := by
  induction l1 with
  | nil =>
    unfold State.insertKets
    simp only [List.nil_append, hj, if_true]
    split <;> simp
  | cons k rest ih =>
    unfold State.insertKets
    have hk : ¬ k.bits = ket.bits := h1 k (by simp)
    simp only [List.cons_append, hk, if_false]
    rw [ih (fun x hx => h1 x (by simp [hx]))]

/-! ### C1 — Hadamard per-ket transform -/

/-- C1: for every ket `k` and target `t < k.bits.length`, `H{t}` produces
exactly two kets: (a) bit `t` unchanged, amplitude scaled by 1/√2 and
negated first when bit `t` was set, and (b) bit `t` flipped, amplitude
scaled by 1/√2 with no sign change. -/
theorem C1_hadamard_branches (k : Ket) (t : ℕ) (ht : t < k.bits.length) :
    apply_gate_to_ket (Gate.H t) k = some (GateKetResult.kets
      [⟨(if k.bits.getD t false then -k.amplitude else k.amplitude) * Amp.invSqrt2, k.bits⟩,
       ⟨k.amplitude * Amp.invSqrt2, k.bits.set t (!k.bits.getD t false)⟩]) := by
  unfold apply_gate_to_ket
  simp only [applyKetFuel]
  rw [Ket.flip_eq_some ht, Ket.get_eq_some ht]
  by_cases hb : k.bits.getD t false <;> simp [hb, mul_neg_one]

/-- Witness for C1, which is also the claim's concrete scenario: `H{0}` on
the 1-qubit ground state yields the kets `bits=0` and `bits=1`, each with
amplitude 1/√2. -/
theorem C1_hadamard_branches_witness :
    apply_gate_to_ket (Gate.H 0) (Ket.new_zero_ket 1) = some (GateKetResult.kets
      [⟨Amp.invSqrt2, [false]⟩, ⟨Amp.invSqrt2, [true]⟩]) := by
  have h := C1_hadamard_branches (Ket.new_zero_ket 1) 0 (by decide)
  rw [h]
  decide

/-! ### C2 — `add_or_insert` behaviour -/

/-- C2: `add_or_insert` is a no-op on zero-magnitude amplitudes; on a state
storing a ket with the same bits (stated for a deduplicated position:
`l1` holds no match) it accumulates the amplitudes, keeping the entry only
when the accumulated magnitude exceeds 1e-6; otherwise it appends the ket;
and the concrete cancellation scenario: inserting bits=(1), amplitude -1
into a state holding bits=(1), amplitude +1 empties the state. -/
theorem C2_add_or_insert (s : State) (ket : Ket) :
    (Amp.normSq ket.amplitude = 0 → s.add_or_insert ket = s) ∧
    (Amp.normSq ket.amplitude ≠ 0 →
      ∀ l1 j l2, s.kets = l1 ++ j :: l2 → (∀ x ∈ l1, x.bits ≠ ket.bits) →
        j.bits = ket.bits →
        s.add_or_insert ket =
          ⟨l1 ++ (if Amp.normGt (j.amplitude + ket.amplitude) (1/1000000) then
              [(⟨j.amplitude + ket.amplitude, j.bits⟩ : Ket)] else []) ++ l2,
            s.num_qubits⟩) ∧
    (Amp.normSq ket.amplitude ≠ 0 → (∀ x ∈ s.kets, x.bits ≠ ket.bits) →
      s.add_or_insert ket = ⟨s.kets ++ [ket], s.num_qubits⟩) ∧
    State.add_or_insert ⟨[⟨1, [true]⟩], 1⟩ ⟨-1, [true]⟩ = ⟨[], 1⟩ := by
  refine ⟨?_, ?_, ?_, by decide⟩
  · intro h
    unfold State.add_or_insert
    simp [h]
  · intro h l1 j l2 hsplit h1 hj
    unfold State.add_or_insert
    simp only [h, if_false]
    rw [hsplit, State.insertKets_found h1 hj]
  · intro h hall
    unfold State.add_or_insert
    simp only [h, if_false]
    rw [State.insertKets_no_match hall]

/-- Witness for C2: the cancellation scenario through the accumulate
branch, and the zero-amplitude no-op at a concrete input. -/
theorem C2_add_or_insert_witness :
    State.add_or_insert ⟨[⟨1, [true]⟩], 1⟩ ⟨-1, [true]⟩ = ⟨[], 1⟩ ∧
    State.add_or_insert (State.new 1) ⟨0, [false]⟩ = State.new 1 := by
  refine ⟨?_, (C2_add_or_insert (State.new 1) ⟨0, [false]⟩).1 (by decide)⟩
  have h := (C2_add_or_insert ⟨[⟨1, [true]⟩], 1⟩ ⟨-1, [true]⟩).2.1 (by decide)
    [] ⟨1, [true]⟩ [] rfl (by simp) rfl
  rw [h]
  decide

/-! ### C8 — bit access range contract -/

/-- C8: `get` and `flip` fail (panic, embedded as `none`) for any index at
or beyond the register width, and succeed below it. -/
theorem C8_index_range (k : Ket) (i : ℕ) :
    (k.bits.length ≤ i → k.get i = none ∧ k.flip i = none) ∧
    (i < k.bits.length → (k.get i).isSome ∧ (k.flip i).isSome) := by
  constructor
  · intro h
    exact ⟨Ket.get_eq_none h, Ket.flip_eq_none h⟩
  · intro h
    rw [Ket.get_eq_some h, Ket.flip_eq_some h]
    exact ⟨rfl, rfl⟩

/-- Witness for C8 at a concrete 2-bit ket: index 5 fails, index 1
succeeds. -/
theorem C8_index_range_witness :
    ((⟨1, [false, true]⟩ : Ket).get 5 = none ∧ (⟨1, [false, true]⟩ : Ket).flip 5 = none) ∧
    (((⟨1, [false, true]⟩ : Ket).get 1).isSome ∧ ((⟨1, [false, true]⟩ : Ket).flip 1).isSome) :=
  ⟨(C8_index_range ⟨1, [false, true]⟩ 5).1 (by decide),
   (C8_index_range ⟨1, [false, true]⟩ 1).2 (by decide)⟩

/-! ### C9 — structural equality ignores amplitudes -/

/-- C9 counterexample: two one-ket states with the same bit pattern but
amplitudes 1 and 2 compare equal under the `PartialEq` embedding, refuting
the claim that `==` requires exactly equal amplitudes. -/
theorem C9_structural_eq_counterexample :
    State.eq ⟨[⟨1, [false]⟩], 1⟩ ⟨[⟨⟨2, 0, 0, 0⟩, [false]⟩], 1⟩ = true ∧
    (⟨[⟨1, [false]⟩], 1⟩ : State).kets ≠ (⟨[⟨⟨2, 0, 0, 0⟩, [false]⟩], 1⟩ : State).kets := by
  decide

/-- C9 amended: `==` on states compares the qubit counts and the sets of
stored bit patterns only — `Ket`'s `PartialEq`/`Hash` are bits-only, so
amplitudes are ignored entirely. -/
theorem C9_structural_eq_characterization (s1 s2 : State) :
    State.eq s1 s2 = true ↔
      (s1.num_qubits = s2.num_qubits ∧ s1.kets.length = s2.kets.length ∧
        ∀ k ∈ s1.kets, ∃ k2 ∈ s2.kets, k2.bits = k.bits) := by
  unfold State.eq
  simp [List.all_eq_true, List.any_eq_true]

/-! ### C10 — `from_ket_vec` on the empty list -/

/-- C10: constructing a state from an empty ket vector hits the
out-of-bounds indexing of `kets[0]` (not a width-mismatch error and not a
normal return), and every non-empty vector of uniform width constructs
normally. -/
theorem C10_from_ket_vec_empty :
    State.from_ket_vec [] = Except.error State.ConstructError.indexOutOfBounds ∧
    (∀ k0 rest, (∀ k ∈ k0 :: rest, k.bits.length = k0.bits.length) →
      State.from_ket_vec (k0 :: rest) =
        Except.ok ((k0 :: rest).foldl State.add_or_insert (State.new k0.bits.length))) ∧
    (∀ k0 rest s, State.from_ket_vec (k0 :: rest) = Except.ok s →
      ∀ k ∈ k0 :: rest, k.bits.length = k0.bits.length) := by
  refine ⟨rfl, ?_, ?_⟩
  · intro k0 rest h
    unfold State.from_ket_vec
    have : (k0 :: rest).all (fun k => decide (k.bits.length = k0.bits.length)) = true := by
      rw [List.all_eq_true]
      intro k hk
      exact decide_eq_true (h k hk)
    simp [this]
  · intro k0 rest s hok k hk
    unfold State.from_ket_vec at hok
    by_cases hall : (k0 :: rest).all (fun k => decide (k.bits.length = k0.bits.length)) = true
    · rw [List.all_eq_true] at hall
      exact of_decide_eq_true (hall k hk)
    · simp [hall] at hok

/-- Witness for C10: the singleton ground-state vector constructs
normally. -/
theorem C10_from_ket_vec_empty_witness :
    State.from_ket_vec [Ket.new_zero_ket 1] =
      Except.ok ([Ket.new_zero_ket 1].foldl State.add_or_insert (State.new 1)) :=
  C10_from_ket_vec_empty.2.1 (Ket.new_zero_ket 1) [] (by decide)

/-! ### C3 — states reachable through the public operations -/

/-- States reachable through the public operations of `State`. -/
inductive Reachable : State → Prop
  | new (n : ℕ) : Reachable (State.new n)
  | from_ket_vec (l : List Ket) (s : State) :
      State.from_ket_vec l = Except.ok s → Reachable s
  | add_or_insert (s : State) (k : Ket) :
      Reachable s → Reachable (s.add_or_insert k)
  | remove (s : State) (k : Ket) : Reachable s → Reachable (s.remove k)
  | remove_zero (s : State) :
      Reachable s → Reachable s.remove_zero_amplitude_kets
  | apply_gate (s s' : State) (g : Gate) :
      Reachable s → apply_gate_to_state s g = some s' → Reachable s'

/-- The deduplication-and-nonzero invariant of a ket collection: no two
entries share a bit pattern, and every stored amplitude is nonzero. -/
def KetsInv (l : List Ket) : Prop :=
  (l.map Ket.bits).Nodup ∧ ∀ k ∈ l, k.amplitude ≠ 0

instance (l : List Ket) : Decidable (KetsInv l) := by
  unfold KetsInv
  infer_instance

theorem normGt_ne_zero {z : Amp} (h : Amp.normGt z (1/1000000) = true) : z ≠ 0 := by
  intro hz
  rw [hz] at h
  exact absurd h (by decide)

theorem bits_mem_insertKets {ket x : Ket} {l : List Ket}
    (hx : x ∈ State.insertKets ket l) : x.bits ∈ l.map Ket.bits ∨ x.bits = ket.bits := by
  induction l with
  | nil =>
    unfold State.insertKets at hx
    rw [List.mem_singleton] at hx
    right
    rw [hx]
  | cons k rest ih =>
    unfold State.insertKets at hx
    by_cases hk : k.bits = ket.bits
    · rw [if_pos hk] at hx
      rcases Bool.eq_false_or_eq_true (Amp.normGt (k.amplitude + ket.amplitude) (1/1000000))
        with hc | hc
      · rw [hc, if_pos rfl, List.mem_cons] at hx
        rcases hx with h | h
        · right
          rw [h, hk]
        · left
          exact List.mem_cons_of_mem _ (List.mem_map_of_mem Ket.bits h)
      · rw [hc, if_neg Bool.false_ne_true] at hx
        left
        exact List.mem_cons_of_mem _ (List.mem_map_of_mem Ket.bits hx)
    · rw [if_neg hk, List.mem_cons] at hx
      rcases hx with h | h
      · left
        rw [h]
        exact List.mem_cons_self _ _
      · rcases ih h with h2 | h2
        · left
          exact List.mem_cons_of_mem _ h2
        · right
          exact h2

theorem KetsInv_insertKets {ket : Ket} {l : List Ket}
    (hket : ket.amplitude ≠ 0) (hl : KetsInv l) : KetsInv (State.insertKets ket l) := by
  obtain ⟨hnd, hamp⟩ := hl
  induction l with
  | nil =>
    refine ⟨by simp [State.insertKets], ?_⟩
    intro x hx
    unfold State.insertKets at hx
    simp at hx
    rw [hx]
    exact hket
  | cons k rest ih =>
    simp only [List.map_cons, List.nodup_cons] at hnd
    obtain ⟨hkmem, hndr⟩ := hnd
    have hampr : ∀ x ∈ rest, x.amplitude ≠ 0 := fun x hx => hamp x (by simp [hx])
    unfold State.insertKets
    by_cases hk : k.bits = ket.bits
    · rw [if_pos hk]
      rcases Bool.eq_false_or_eq_true (Amp.normGt (k.amplitude + ket.amplitude) (1/1000000))
        with hc | hc
      · rw [hc, if_pos rfl]
        constructor
        · simp only [List.map_cons, List.nodup_cons]
          exact ⟨hk ▸ hkmem, hndr⟩
        · intro x hx
          rcases List.mem_cons.mp hx with h | h
          · rw [h]
            exact normGt_ne_zero hc
          · exact hampr x h
      · rw [hc, if_neg Bool.false_ne_true]
        exact ⟨hndr, hampr⟩
    · rw [if_neg hk]
      obtain ⟨ihnd, ihamp⟩ := ih hndr hampr
      constructor
      · simp only [List.map_cons, List.nodup_cons]
        refine ⟨?_, ihnd⟩
        intro hmem
        rcases List.mem_map.mp hmem with ⟨y, hy, hyb⟩
        rcases bits_mem_insertKets hy with h2 | h2
        · exact hkmem (hyb ▸ h2)
        · exact hk (hyb ▸ h2)
      · intro x hx
        rcases List.mem_cons.mp hx with h | h
        · rw [h]
          exact hamp k (by simp)
        · exact ihamp x h

theorem KetsInv_add_or_insert {s : State} {k : Ket} (h : KetsInv s.kets) :
    KetsInv (s.add_or_insert k).kets := by
  unfold State.add_or_insert
  by_cases hz : Amp.normSq k.amplitude = 0
  · simp [hz, h]
  · simp only [hz, if_false]
    exact KetsInv_insertKets (fun hk0 => hz (by rw [hk0]; decide)) h

theorem KetsInv_foldl {l : List Ket} {s : State} (h : KetsInv s.kets) :
    KetsInv (l.foldl State.add_or_insert s).kets := by
  induction l generalizing s with
  | nil => exact h
  | cons k rest ih => exact ih (KetsInv_add_or_insert h)

theorem KetsInv_applyKetsLoop {g : Gate} {l : List Ket} {acc s' : State}
    (h : KetsInv acc.kets) (hrun : applyKetsLoop g l acc = some s') :
    KetsInv s'.kets := by
  induction l generalizing acc with
  | nil =>
    unfold applyKetsLoop at hrun
    cases hrun
    exact h
  | cons k rest ih =>
    unfold applyKetsLoop at hrun
    split at hrun
    · split at hrun
      · exact ih (KetsInv_foldl h) hrun
      · cases hrun
    · cases hrun

/-- C3 counterexample: the claim as stated is false — a freshly inserted
ket with the tiny nonzero amplitude 1e-7 is stored (the tolerance check
only runs on the accumulate path), so a reachable state can hold an
amplitude of magnitude below 1e-6. -/
theorem C3_invariant_counterexample :
    Reachable (State.add_or_insert (State.new 1) ⟨⟨1/10000000, 0, 0, 0⟩, [false]⟩) ∧
    ∃ k ∈ (State.add_or_insert (State.new 1) ⟨⟨1/10000000, 0, 0, 0⟩, [false]⟩).kets,
      Amp.normLt k.amplitude (1/1000000) = true := by
  refine ⟨Reachable.add_or_insert _ _ (Reachable.new 1), ?_⟩
  exact ⟨⟨⟨1/10000000, 0, 0, 0⟩, [false]⟩, by decide, by decide⟩

/-- C3 amended: every state reachable through the public operations is
deduplicated (no two stored kets share a bit pattern) and stores no ket of
zero amplitude; amplitudes of nonzero magnitude below the 1e-6 tolerance
can however be stored, since fresh inserts are not tolerance-checked. -/
theorem C3_invariant (s : State) (h : Reachable s) : KetsInv s.kets := by
  induction h with
  | new n => exact ⟨by simp [State.new], by simp [State.new]⟩
  | from_ket_vec l s hok =>
    cases l with
    | nil => simp [State.from_ket_vec] at hok
    | cons k0 rest =>
      simp only [State.from_ket_vec] at hok
      split at hok
      · cases hok
        exact KetsInv_foldl ⟨by simp [State.new], by simp [State.new]⟩
      · cases hok
  | add_or_insert s k _ ih => exact KetsInv_add_or_insert ih
  | remove s k _ ih =>
    obtain ⟨hnd, hamp⟩ := ih
    have hsub : (s.remove k).kets.Sublist s.kets := List.eraseP_sublist _
    exact ⟨(hsub.map Ket.bits).nodup hnd, fun x hx => hamp x (hsub.mem hx)⟩
  | remove_zero s _ ih =>
    obtain ⟨hnd, hamp⟩ := ih
    have hsub : s.remove_zero_amplitude_kets.kets.Sublist s.kets := List.filter_sublist _
    exact ⟨(hsub.map Ket.bits).nodup hnd, fun x hx => hamp x (hsub.mem hx)⟩
  | apply_gate s s' g _ happ ih =>
    exact KetsInv_applyKetsLoop ⟨by simp [State.new], by simp [State.new]⟩ happ

/-- Witness for C3 at a concrete reachable state. -/
theorem C3_invariant_witness :
    KetsInv (State.add_or_insert (State.new 1) (Ket.new_zero_ket 1)).kets :=
  C3_invariant _ (Reachable.add_or_insert _ _ (Reachable.new 1))

/-! ### Sorting machinery for the equivalence checker -/

theorem patLe_refl (a : List Bool) : patLe a a = true := by
  induction a with
  | nil => rfl
  | cons x xs ih =>
    unfold patLe
    simp [ih]

theorem patLe_total (a b : List Bool) : (patLe a b || patLe b a) = true := by
  induction a generalizing b with
  | nil => simp [patLe]
  | cons x xs ih =>
    cases b with
    | nil => simp [patLe]
    | cons y ys =>
      unfold patLe
      by_cases hxy : x = y
      · simp [hxy, ih ys]
      · have hyx : ¬ y = x := fun h => hxy h.symm
        simp only [hxy, hyx, if_false]
        cases x <;> cases y <;> simp_all

theorem patLe_trans {a b c : List Bool} (h1 : patLe a b = true) (h2 : patLe b c = true) :
    patLe a c = true := by
  induction a generalizing b c with
  | nil => rfl
  | cons x xs ih =>
    cases b with
    | nil => simp [patLe] at h1
    | cons y ys =>
      cases c with
      | nil => simp [patLe] at h2
      | cons z zs =>
        unfold patLe at h1 h2 ⊢
        by_cases hxy : x = y <;> by_cases hyz : y = z
        · simp only [hxy, hyz, if_pos rfl] at h1 h2 ⊢
          exact ih h1 h2
        · simp only [hxy, if_pos rfl] at h1 ⊢
          simp only [if_neg hyz] at h2
          rw [if_neg (hxy ▸ hyz)]
          exact h2
        · simp only [if_neg hxy] at h1
          simp only [hyz] at h1
          rw [if_neg (hyz ▸ hxy)]
          exact h1
        · simp only [if_neg hxy] at h1
          simp only [if_neg hyz] at h2
          cases x <;> cases y <;> cases z <;> simp_all [patLe]

theorem patLe_antisymm {a b : List Bool} (h1 : patLe a b = true) (h2 : patLe b a = true) :
    a = b := by
  induction a generalizing b with
  | nil =>
    cases b with
    | nil => rfl
    | cons y ys => simp [patLe] at h2
  | cons x xs ih =>
    cases b with
    | nil => simp [patLe] at h1
    | cons y ys =>
      unfold patLe at h1 h2
      by_cases hxy : x = y
      · have hyx : y = x := hxy.symm
        simp only [hxy, if_pos rfl] at h1
        simp only [hyx, if_pos rfl] at h2
        rw [hxy, ih h1 h2]
      · have hyx : ¬ y = x := fun h => hxy h.symm
        simp only [if_neg hxy] at h1
        simp only [if_neg hyx] at h2
        cases x <;> cases y <;> simp_all

theorem ketLe_trans (a b c : Ket) (h1 : ketLe a b = true) (h2 : ketLe b c = true) :
    ketLe a c = true := patLe_trans h1 h2

theorem ketLe_total (a b : Ket) : (ketLe a b || ketLe b a) = true := patLe_total a.bits b.bits

/-- Two sorted ket lists that are permutations of one another and have
duplicate-free bit patterns are equal. -/
theorem sorted_nodupkeys_perm_eq : ∀ {l1 l2 : List Ket}, l1.Perm l2 →
    l1.Pairwise (fun a b => ketLe a b = true) →
    l2.Pairwise (fun a b => ketLe a b = true) →
    (l1.map Ket.bits).Nodup → l1 = l2 := by
  intro l1
  induction l1 with
  | nil =>
    intro l2 hp _ _ _
    exact (hp.nil_eq).symm ▸ rfl
  | cons a t1 ih =>
    intro l2 hp hs1 hs2 hnd
    cases l2 with
    | nil => exact absurd hp.symm.nil_eq (by simp)
    | cons b t2 =>
      have hb1 : b ∈ a :: t1 := hp.symm.subset (List.mem_cons_self b t2)
      have ha2 : a ∈ b :: t2 := hp.subset (List.mem_cons_self a t1)
      simp only [List.map_cons, List.nodup_cons] at hnd
      obtain ⟨hamem, hndt⟩ := hnd
      have hab : a = b := by
        rcases List.mem_cons.mp hb1 with h | h
        · exact h.symm
        · have le1 : ketLe a b = true := (List.pairwise_cons.mp hs1).1 b h
          have le2 : ketLe b a = true := by
            rcases List.mem_cons.mp ha2 with h2 | h2
            · rw [h2]
              exact patLe_refl _
            · exact (List.pairwise_cons.mp hs2).1 a h2
          have hbits : a.bits = b.bits := patLe_antisymm le1 le2
          exact absurd (hbits ▸ List.mem_map_of_mem Ket.bits h) hamem
      subst hab
      have hpt : t1.Perm t2 := hp.cons_inv
      rw [ih hpt (List.pairwise_cons.mp hs1).2 (List.pairwise_cons.mp hs2).2 hndt]

/-- Sorting is insensitive to the stored order when bit patterns are
duplicate-free. -/
theorem mergeSort_eq_of_perm {l1 l2 : List Ket} (h : l1.Perm l2)
    (hnd : (l1.map Ket.bits).Nodup) :
    l1.mergeSort ketLe = l2.mergeSort ketLe := by
  refine sorted_nodupkeys_perm_eq
    ((List.mergeSort_perm l1 ketLe).trans (h.trans (List.mergeSort_perm l2 ketLe).symm))
    (List.sorted_mergeSort ketLe_trans ketLe_total l1)
    (List.sorted_mergeSort ketLe_trans ketLe_total l2) ?_
  exact (((List.mergeSort_perm l1 ketLe).map Ket.bits).nodup_iff).mpr hnd

/-! ### C7 — the equivalence checker -/

/-- C7: `are_equivalent` returns false on differing qubit counts or ket
counts, and otherwise holds exactly when the two collections, sorted by
bit pattern, match positionally with bit patterns equal and amplitude
difference of magnitude below the tolerance; on deduplicated states the
result is independent of the internal storage order. -/
theorem C7_are_equivalent_spec (s1 s2 : State) :
    (s1.num_qubits ≠ s2.num_qubits → State.are_equivalent s1 s2 = false) ∧
    (s1.kets.length ≠ s2.kets.length → State.are_equivalent s1 s2 = false) ∧
    (s1.num_qubits = s2.num_qubits → s1.kets.length = s2.kets.length →
      (State.are_equivalent s1 s2 = true ↔
        ∀ p ∈ (s1.kets.mergeSort ketLe).zip (s2.kets.mergeSort ketLe),
          p.1.bits = p.2.bits ∧
            Amp.normLt (p.1.amplitude + -p.2.amplitude) (1/1000000) = true)) ∧
    (∀ l1', s1.kets.Perm l1' → (s1.kets.map Ket.bits).Nodup →
      State.are_equivalent ⟨l1', s1.num_qubits⟩ s2 = State.are_equivalent s1 s2) := by
  refine ⟨?_, ?_, ?_, ?_⟩
  · intro h
    simp [State.are_equivalent, h]
  · intro h
    by_cases hn : s1.num_qubits ≠ s2.num_qubits <;>
      simp [State.are_equivalent, h, hn]
  · intro hn hl
    simp only [State.are_equivalent, hn, ne_eq, not_true_eq_false, if_false, hl]
    rw [List.all_eq_true]
    constructor
    · intro h p hp
      have := h p hp
      unfold Ket.are_equivalent at this
      rw [Bool.and_eq_true, decide_eq_true_eq] at this
      exact this
    · intro h p hp
      unfold Ket.are_equivalent
      rw [Bool.and_eq_true, decide_eq_true_eq]
      exact h p hp
  · intro l1' hperm hnd
    unfold State.are_equivalent
    rw [hperm.length_eq, mergeSort_eq_of_perm hperm.symm
      ((hperm.map Ket.bits).nodup_iff.mp hnd)]

/-! ### Semantic layer: amplitude functions of ket collections

The proofs of the algebraic claims view a ket collection through the
function assigning to each bit pattern the total amplitude stored on it. -/

/-- The contribution of a single ket to a bit pattern. -/
def ampDelta (k : Ket) (b : List Bool) : Amp := if k.bits = b then k.amplitude else 0

/-- The total amplitude a ket collection assigns to a bit pattern. -/
def ampOf (l : List Ket) (b : List Bool) : Amp := (l.map (fun k => ampDelta k b)).sum

theorem ampOf_nil (b : List Bool) : ampOf [] b = 0 := rfl

theorem ampOf_cons (k : Ket) (l : List Ket) (b : List Bool) :
    ampOf (k :: l) b = ampDelta k b + ampOf l b := by
  unfold ampOf
  rw [List.map_cons, List.sum_cons]

theorem ampOf_append (l1 l2 : List Ket) (b : List Bool) :
    ampOf (l1 ++ l2) b = ampOf l1 b + ampOf l2 b := by
  unfold ampOf
  rw [List.map_append, List.sum_append]

theorem ampOf_perm {l1 l2 : List Ket} (h : l1.Perm l2) (b : List Bool) :
    ampOf l1 b = ampOf l2 b :=
  List.Perm.sum_eq (h.map (fun k => ampDelta k b))

theorem ampOf_reverse (l : List Ket) (b : List Bool) :
    ampOf l.reverse b = ampOf l b :=
  ampOf_perm (List.reverse_perm l) b

theorem ampOf_eq_zero_of_not_mem {l : List Ket} {b : List Bool}
    (h : ∀ j ∈ l, j.bits ≠ b) : ampOf l b = 0 := by
  induction l with
  | nil => rfl
  | cons k rest ih =>
    rw [ampOf_cons, ih (fun j hj => h j (by simp [hj]))]
    unfold ampDelta
    rw [if_neg (h k (by simp))]
    rw [add_zero]

theorem exists_mem_of_ampOf_ne_zero {l : List Ket} {b : List Bool}
    (h : ampOf l b ≠ 0) : ∃ j ∈ l, j.bits = b := by
  by_contra hcon
  push_neg at hcon
  exact h (ampOf_eq_zero_of_not_mem hcon)

theorem ampOf_eq_of_mem {l : List Ket} {k : Ket}
    (hnd : (l.map Ket.bits).Nodup) (hk : k ∈ l) : ampOf l k.bits = k.amplitude := by
  induction l with
  | nil => cases hk
  | cons j rest ih =>
    simp only [List.map_cons, List.nodup_cons] at hnd
    obtain ⟨hjmem, hndr⟩ := hnd
    rw [ampOf_cons]
    rcases List.mem_cons.mp hk with h | h
    · rw [h]
      unfold ampDelta
      rw [if_pos rfl, ampOf_eq_zero_of_not_mem
        (fun x hx hbx => hjmem (by rw [← hbx]; exact List.mem_map_of_mem Ket.bits hx)),
        add_zero]
    · rw [ih hndr h]
      unfold ampDelta
      rw [if_neg (fun hbx => hjmem (by rw [hbx]; exact List.mem_map_of_mem Ket.bits h)),
        zero_add]

/-- All bit patterns of a given length. -/
def allPats : ℕ → List (List Bool)
  | 0 => [[]]
  | n + 1 => (allPats n).map (List.cons false) ++ (allPats n).map (List.cons true)

theorem allPats_mem_iff {n : ℕ} {b : List Bool} : b ∈ allPats n ↔ b.length = n := by
  induction n generalizing b with
  | zero =>
    unfold allPats
    constructor
    · intro h
      simp at h
      rw [h]
      rfl
    · intro h
      simp [List.length_eq_zero.mp h]
  | succ m ih =>
    unfold allPats
    rw [List.mem_append]
    constructor
    · intro h
      rcases h with h | h <;>
        · rcases List.mem_map.mp h with ⟨p, hp, hpe⟩
          rw [← hpe]
          simp [ih.mp hp]
    · intro h
      cases b with
      | nil => cases h
      | cons x xs =>
        have hx : xs ∈ allPats m := ih.mpr (by simpa using h)
        cases x
        · exact Or.inl (List.mem_map_of_mem _ hx)
        · exact Or.inr (List.mem_map_of_mem _ hx)

theorem allPats_nodup (n : ℕ) : (allPats n).Nodup := by
  induction n with
  | zero => simp [allPats]
  | succ m ih =>
    unfold allPats
    refine List.Nodup.append (ih.map (fun a b h => by injection h))
      (ih.map (fun a b h => by injection h)) ?_
    intro x hx hy
    rcases List.mem_map.mp hx with ⟨p, _, hpe⟩
    rcases List.mem_map.mp hy with ⟨q, _, hqe⟩
    rw [← hpe] at hqe
    simp at hqe

/-- Sum of squared magnitudes of an amplitude function over all patterns of
a given width, as an exact element of ℚ[√2]. -/
def normSqSum (f : List Bool → Amp) (n : ℕ) : ℚ × ℚ :=
  ((allPats n).map (fun b => Amp.normSq (f b))).sum

/-- Sum of squared magnitudes over the stored kets of a collection. -/
def stateNormSq (l : List Ket) : ℚ × ℚ := (l.map (fun k => Amp.normSq k.amplitude)).sum

/-! ### Algebraic identities of `normSq` -/

theorem normSq_zero : Amp.normSq 0 = 0 := by decide

theorem normSq_add_of_left_zero {z w : Amp} (h : z = 0) :
    Amp.normSq (z + w) = Amp.normSq z + Amp.normSq w := by
  rw [h, zero_add, normSq_zero, zero_add]

/-- The parallelogram law, exactly, in ℚ[√2]. -/
theorem normSq_parallelogram (z w : Amp) :
    Amp.normSq (z + w) + Amp.normSq (z + -w) =
      (Amp.normSq z + Amp.normSq z) + (Amp.normSq w + Amp.normSq w) := by
  unfold Amp.normSq
  apply Prod.ext <;>
    simp [Amp.add_def, Amp.neg_def, Prod.fst, Prod.snd] <;> ring

theorem normSq_mul_invSqrt2 (z : Amp) :
    Amp.normSq (z * Amp.invSqrt2) =
      ((Amp.normSq z).1 / 2, (Amp.normSq z).2 / 2) := by
  unfold Amp.normSq Amp.invSqrt2
  apply Prod.ext <;> simp [Amp.mul_def, Prod.fst, Prod.snd] <;> ring

theorem normSq_neg (z : Amp) : Amp.normSq (-z) = Amp.normSq z := by
  unfold Amp.normSq
  apply Prod.ext <;> (simp [Amp.neg_def]; try ring)

theorem normSq_mul_zeta (z : Amp) : Amp.normSq (z * Amp.zeta) = Amp.normSq z := by
  unfold Amp.normSq Amp.zeta
  apply Prod.ext <;> simp [Amp.mul_def, Prod.fst, Prod.snd] <;> ring

theorem normSq_mul_zetaConj (z : Amp) : Amp.normSq (z * Amp.zetaConj) = Amp.normSq z := by
  unfold Amp.normSq Amp.zetaConj
  apply Prod.ext <;> simp [Amp.mul_def, Prod.fst, Prod.snd] <;> ring

/-! ### Ideal per-pattern semantics of the gates -/

/-- Flips bit `t` of a pattern (no-op beyond the pattern length, which the
well-formedness hypotheses exclude). -/
def flipPat (t : ℕ) (b : List Bool) : List Bool := b.set t (!b.getD t false)

theorem flipPat_length (t : ℕ) (b : List Bool) : (flipPat t b).length = b.length := by
  unfold flipPat
  exact List.length_set b t _

theorem set_getD_self {l : List Bool} {i : ℕ} (h : i < l.length) :
    l.set i (l.getD i false) = l := by
  apply List.ext_getElem?
  intro n
  rw [List.getElem?_set]
  by_cases hn : i = n
  · subst hn
    rw [if_pos rfl, if_pos h, List.getD_eq_getElem?_getD, List.getElem?_eq_getElem h]
    rfl
  · rw [if_neg hn]

theorem flipPat_getD {t : ℕ} {b : List Bool} (h : t < b.length) :
    (flipPat t b).getD t false = !b.getD t false := by
  unfold flipPat
  rw [List.getD_eq_getElem?_getD (b.set t (!b.getD t false)) t false,
    List.getElem?_set_self h]
  rfl

theorem flipPat_flipPat {t : ℕ} {b : List Bool} (h : t < b.length) :
    flipPat t (flipPat t b) = b := by
  unfold flipPat
  rw [List.getD_eq_getElem?_getD (b.set t (!b.getD t false)) t false,
    List.getElem?_set_self h, Option.getD_some, Bool.not_not, List.set_set,
    set_getD_self h]

/-- The pattern permutation of CX: flip `t` when bit `c` is set (an
involution when `c ≠ t`). -/
def cxPat (c t : ℕ) (b : List Bool) : List Bool :=
  if b.getD c false then flipPat t b else b

/-- The pattern permutation of Toffoli: flip `t` when all controls are set
(an involution when `t` is not a control). -/
def tofPat (cs : List ℕ) (t : ℕ) (b : List Bool) : List Bool :=
  if cs.all (fun c => b.getD c false) then flipPat t b else b

mutual

/-- The ideal linear action of a gate on amplitude functions, read off the
per-ket transforms of `apply_gate_to_ket`. -/
def gop : Gate → (List Bool → Amp) → (List Bool → Amp)
  | .H t, f => fun b =>
    (if b.getD t false then -(f b) else f b) * Amp.invSqrt2 +
      f (flipPat t b) * Amp.invSqrt2
  | .X t, f => fun b => f (flipPat t b)
  | .T t, f => fun b => if b.getD t false then f b * Amp.zeta else f b
  | .TDgr t, f => fun b => if b.getD t false then f b * Amp.zetaConj else f b
  | .CX c t, f => fun b => f (cxPat c t b)
  | .Toffoli cs t, f => fun b => f (tofPat cs t b)
  | .Composite gs, f => gopList gs f
termination_by g _ => (sizeOf g, 0)

/-- Left-to-right composition of the ideal actions of a gate sequence. -/
def gopList : List Gate → (List Bool → Amp) → (List Bool → Amp)
  | [], f => f
  | g :: rest, f => gopList rest (gop g f)
termination_by gs _ => (sizeOf gs, 1)

end

/-- Composition of additive actions is additive. -/
theorem gopList_add_of (gs : List Gate)
    (hadd : ∀ g ∈ gs, ∀ f1 f2 b,
      gop g (fun x => f1 x + f2 x) b = gop g f1 b + gop g f2 b) :
    ∀ f1 f2 b, gopList gs (fun x => f1 x + f2 x) b = gopList gs f1 b + gopList gs f2 b := by
  induction gs with
  | nil =>
    intro f1 f2 b
    simp [gopList]
  | cons g rest ih =>
    intro f1 f2 b
    simp only [gopList]
    have h1 : gop g (fun x => f1 x + f2 x) = fun x => gop g f1 x + gop g f2 x :=
      funext (fun x => hadd g (by simp) f1 f2 x)
    rw [h1]
    exact ih (fun g2 hg2 => hadd g2 (by simp [hg2])) (gop g f1) (gop g f2) b

/-- Every gate acts additively on amplitude functions. -/
theorem gop_add (g : Gate) (f1 f2 : List Bool → Amp) (b : List Bool) :
    gop g (fun x => f1 x + f2 x) b = gop g f1 b + gop g f2 b := by
  suffices h : ∀ (N : ℕ) (g : Gate), sizeOf g < N → ∀ f1 f2 b,
      gop g (fun x => f1 x + f2 x) b = gop g f1 b + gop g f2 b from
    h (sizeOf g + 1) g (by omega) f1 f2 b
  intro N
  induction N with
  | zero => intro g hg; omega
  | succ M ihN =>
    intro g hg f1 f2 b
    cases g with
    | H t =>
      simp only [gop]
      by_cases hb : b.getD t false = true
      · rw [if_pos hb, if_pos hb, if_pos hb]
        ring
      · rw [if_neg hb, if_neg hb, if_neg hb]
        ring
    | X t =>
      simp [gop]
    | T t =>
      simp only [gop]
      by_cases hb : b.getD t false = true
      · rw [if_pos hb, if_pos hb, if_pos hb]
        ring
      · rw [if_neg hb, if_neg hb, if_neg hb]
    | TDgr t =>
      simp only [gop]
      by_cases hb : b.getD t false = true
      · rw [if_pos hb, if_pos hb, if_pos hb]
        ring
      · rw [if_neg hb, if_neg hb, if_neg hb]
    | CX c t =>
      simp [gop]
    | Toffoli cs t =>
      simp [gop]
    | Composite gs =>
      simp only [gop]
      refine gopList_add_of gs ?_ f1 f2 b
      intro g2 hg2 f3 f4 b2
      refine ihN g2 ?_ f3 f4 b2
      have h1 : sizeOf g2 < sizeOf gs := List.sizeOf_lt_of_mem hg2
      have h2 : sizeOf (Gate.Composite gs) = 1 + sizeOf gs := by simp
      omega

/-- Well-formedness of a gate for a register width: operand indices in
range, and the written (target) qubit distinct from the read (control)
qubits. -/
def GateWF : Gate → ℕ → Prop
  | .H t, n => t < n
  | .X t, n => t < n
  | .T t, n => t < n
  | .TDgr t, n => t < n
  | .CX c t, n => c < n ∧ t < n ∧ c ≠ t
  | .Toffoli cs t, n => (∀ c ∈ cs, c < n) ∧ t < n ∧ t ∉ cs
  | .Composite gs, n => ∀ g ∈ gs, GateWF g n
termination_by g _ => sizeOf g
decreasing_by
  have h1 : sizeOf g < sizeOf gs := List.sizeOf_lt_of_mem (by assumption)
  simp
  omega

/-- Every gate maps the zero amplitude function to zero. -/
theorem gop_zero (g : Gate) (b : List Bool) : gop g (fun _ => (0 : Amp)) b = 0 := by
  suffices h : ∀ (N : ℕ) (g : Gate), sizeOf g < N → ∀ b,
      gop g (fun _ => (0 : Amp)) b = 0 from h (sizeOf g + 1) g (by omega) b
  intro N
  induction N with
  | zero => intro g hg; omega
  | succ M ihN =>
    intro g hg b
    cases g with
    | H t => simp [gop]
    | X t => simp [gop]
    | T t => simp [gop]
    | TDgr t => simp [gop]
    | CX c t => simp [gop]
    | Toffoli cs t => simp [gop]
    | Composite gs =>
      simp only [gop]
      have hz : ∀ g2 ∈ gs, ∀ b2, gop g2 (fun _ => (0 : Amp)) b2 = 0 := by
        intro g2 hg2 b2
        refine ihN g2 ?_ b2
        have h1 : sizeOf g2 < sizeOf gs := List.sizeOf_lt_of_mem hg2
        have h2 : sizeOf (Gate.Composite gs) = 1 + sizeOf gs := by simp
        omega
      clear hg
      induction gs generalizing b with
      | nil => simp [gopList]
      | cons g2 rest ih =>
        simp only [gopList]
        have hg2 : gop g2 (fun _ => (0 : Amp)) = fun _ => (0 : Amp) :=
          funext (fun b2 => hz g2 (by simp) b2)
        rw [hg2]
        exact ih b (fun g3 hg3 b3 => hz g3 (by simp [hg3]) b3)

theorem flipPat_ne {t : ℕ} {b : List Bool} (h : t < b.length) : flipPat t b ≠ b := by
  intro he
  have h1 : (flipPat t b).getD t false = b.getD t false := by rw [he]
  rw [flipPat_getD h] at h1
  exact Bool.not_ne_self _ h1

theorem getD_set_ne {c t : ℕ} (hne : c ≠ t) (b : List Bool) (x : Bool) :
    (b.set t x).getD c false = b.getD c false := by
  rw [List.getD_eq_getElem?_getD, List.getElem?_set_ne (fun h => hne h.symm),
    List.getD_eq_getElem?_getD]

theorem flipPat_getD_ne {c t : ℕ} (hne : c ≠ t) (b : List Bool) :
    (flipPat t b).getD c false = b.getD c false := getD_set_ne hne b _

theorem cxPat_involutive {c t : ℕ} {b : List Bool} (hc : c ≠ t) (ht : t < b.length) :
    cxPat c t (cxPat c t b) = b := by
  unfold cxPat
  by_cases hb : b.getD c false = true
  · rw [if_pos hb, if_pos (by rw [flipPat_getD_ne hc]; exact hb), flipPat_flipPat ht]
  · rw [if_neg hb, if_neg hb]

theorem cxPat_length (c t : ℕ) (b : List Bool) : (cxPat c t b).length = b.length := by
  unfold cxPat
  by_cases hb : b.getD c false = true
  · rw [if_pos hb, flipPat_length]
  · rw [if_neg hb]

theorem tofPat_involutive {cs : List ℕ} {t : ℕ} {b : List Bool}
    (hc : t ∉ cs) (ht : t < b.length) : tofPat cs t (tofPat cs t b) = b := by
  unfold tofPat
  by_cases hb : cs.all (fun c => b.getD c false) = true
  · rw [if_pos hb]
    have hall : (cs.all fun c => (flipPat t b).getD c false) = true := by
      rw [List.all_eq_true] at hb ⊢
      intro c hcmem
      rw [flipPat_getD_ne (fun heq => hc (by rw [← heq]; exact hcmem)) b]
      exact hb c hcmem
    rw [if_pos hall, flipPat_flipPat ht]
  · rw [if_neg hb, if_neg hb]

theorem tofPat_length (cs : List ℕ) (t : ℕ) (b : List Bool) :
    (tofPat cs t b).length = b.length := by
  unfold tofPat
  by_cases hb : (cs.all fun c => b.getD c false) = true
  · rw [if_pos hb, flipPat_length]
  · rw [if_neg hb]

/-- The control-scan of the Toffoli branch computes the conjunction of the
control bits when all controls are in range. -/
theorem checkControls_eq {k : Ket} {cs : List ℕ} (h : ∀ c ∈ cs, c < k.bits.length) :
    checkControls k cs = some (cs.all (fun c => k.bits.getD c false)) := by
  induction cs with
  | nil => rfl
  | cons c rest ih =>
    unfold checkControls
    rw [Ket.get_eq_some (h c (by simp))]
    by_cases hb : k.bits.getD c false = true
    · rw [hb]
      rw [show ((c :: rest).all fun x => k.bits.getD x false) =
          (rest.all fun x => k.bits.getD x false) by rw [List.all_cons, hb]; simp]
      exact ih (fun c2 hc2 => h c2 (by simp [hc2]))
    · rw [Bool.not_eq_true] at hb
      rw [hb]
      rw [show ((c :: rest).all fun x => k.bits.getD x false) = false by
        rw [List.all_cons, hb]; simp]
      rfl

/-- Applying the Hadamard action twice is the identity on patterns that
contain the target bit. -/
theorem gop_H_H {t : ℕ} (f : List Bool → Amp) {b : List Bool} (ht : t < b.length) :
    gop (Gate.H t) (gop (Gate.H t) f) b = f b := by
  have hinv : Amp.invSqrt2 * Amp.invSqrt2 + Amp.invSqrt2 * Amp.invSqrt2 = 1 := by decide
  simp only [gop]
  rw [flipPat_getD ht, flipPat_flipPat ht]
  by_cases hb : b.getD t false = true
  · simp only [hb, Bool.not_true, if_true, Bool.false_eq_true, if_false]
    linear_combination (f b) * hinv
  · rw [Bool.not_eq_true] at hb
    simp only [hb, Bool.not_false, Bool.false_eq_true, if_false, if_true]
    linear_combination (f b) * hinv

/-! ### Per-ket semantics: `apply_gate_to_ket` realizes the ideal action -/

theorem apply_H_eq {k : Ket} {t : ℕ} (ht : t < k.bits.length) :
    apply_gate_to_ket (Gate.H t) k = some (GateKetResult.kets
      [⟨(if k.bits.getD t false then k.amplitude * (-1) else k.amplitude) * Amp.invSqrt2,
          k.bits⟩,
       ⟨k.amplitude * Amp.invSqrt2, flipPat t k.bits⟩]) := by
  unfold apply_gate_to_ket
  simp only [applyKetFuel]
  rw [Ket.flip_eq_some ht, Ket.get_eq_some ht]
  rfl

theorem apply_X_eq {k : Ket} {t : ℕ} (ht : t < k.bits.length) :
    apply_gate_to_ket (Gate.X t) k =
      some (GateKetResult.ket ⟨k.amplitude, flipPat t k.bits⟩) := by
  unfold apply_gate_to_ket
  simp only [applyKetFuel]
  rw [Ket.flip_eq_some ht]
  rfl

theorem apply_T_eq {k : Ket} {t : ℕ} (ht : t < k.bits.length) :
    apply_gate_to_ket (Gate.T t) k = some (GateKetResult.ket
      (if k.bits.getD t false then ⟨k.amplitude * Amp.zeta, k.bits⟩ else k)) := by
  unfold apply_gate_to_ket
  simp only [applyKetFuel]
  rw [Ket.get_eq_some ht]

theorem apply_TDgr_eq {k : Ket} {t : ℕ} (ht : t < k.bits.length) :
    apply_gate_to_ket (Gate.TDgr t) k = some (GateKetResult.ket
      (if k.bits.getD t false then ⟨k.amplitude * Amp.zetaConj, k.bits⟩ else k)) := by
  unfold apply_gate_to_ket
  simp only [applyKetFuel]
  rw [Ket.get_eq_some ht]

theorem apply_CX_eq {k : Ket} {c t : ℕ} (hc : c < k.bits.length) (ht : t < k.bits.length) :
    apply_gate_to_ket (Gate.CX c t) k =
      some (GateKetResult.ket ⟨k.amplitude, cxPat c t k.bits⟩) := by
  unfold apply_gate_to_ket
  simp only [applyKetFuel]
  rw [Ket.get_eq_some hc]
  unfold cxPat
  by_cases hb : k.bits.getD c false = true
  · rw [hb, if_pos rfl]
    show (match k.flip t with
      | some k => some (GateKetResult.ket k)
      | none => none) = _
    rw [Ket.flip_eq_some ht]
    rfl
  · rw [Bool.not_eq_true] at hb
    rw [hb, if_neg Bool.false_ne_true]
    rfl

theorem apply_Toffoli_eq {k : Ket} {cs : List ℕ} {t : ℕ}
    (hcs : ∀ c ∈ cs, c < k.bits.length) (ht : t < k.bits.length) :
    apply_gate_to_ket (Gate.Toffoli cs t) k =
      some (GateKetResult.ket ⟨k.amplitude, tofPat cs t k.bits⟩) := by
  unfold apply_gate_to_ket
  simp only [applyKetFuel]
  rw [checkControls_eq hcs]
  unfold tofPat
  by_cases hb : (cs.all fun c => k.bits.getD c false) = true
  · rw [hb, if_pos rfl]
    show (if true = true then
        match k.flip t with
        | some k => some (GateKetResult.ket k)
        | none => none
      else some (GateKetResult.ket k)) = _
    rw [if_pos rfl, Ket.flip_eq_some ht]
    rfl
  · rw [Bool.not_eq_true] at hb
    rw [hb, if_neg Bool.false_ne_true]
    rfl

/-- The per-ket semantic property of a gate at a register width: the gate
application succeeds and the produced kets realize the ideal action on the
input ket's delta function. -/
def KetSem (g : Gate) (n : ℕ) : Prop :=
  ∀ k : Ket, k.bits.length = n →
    ∃ outs, (apply_gate_to_ket g k).bind resultKets = some outs ∧
      (∀ x ∈ outs, x.bits.length = n) ∧
      ∀ b, b.length = n → ampOf outs b = gop g (ampDelta k) b

/-- Gates evaluate their argument function only at patterns of the same
length, so the action is determined by the values on those patterns. -/
theorem gop_congr (g : Gate) {n : ℕ} (f1 f2 : List Bool → Amp)
    (h : ∀ b, b.length = n → f1 b = f2 b) :
    ∀ b, b.length = n → gop g f1 b = gop g f2 b := by
  suffices hs : ∀ (N : ℕ) (g : Gate), sizeOf g < N → ∀ (f1 f2 : List Bool → Amp),
      (∀ b, b.length = n → f1 b = f2 b) →
      ∀ b, b.length = n → gop g f1 b = gop g f2 b from hs (sizeOf g + 1) g (by omega) f1 f2 h
  intro N
  induction N with
  | zero => intro g hg; omega
  | succ M ihN =>
    intro g hg f1 f2 h b hb
    cases g with
    | H t =>
      simp only [gop]
      rw [h b hb, h (flipPat t b) (by rw [flipPat_length, hb])]
    | X t =>
      simp only [gop]
      rw [h (flipPat t b) (by rw [flipPat_length, hb])]
    | T t =>
      simp only [gop]
      rw [h b hb]
    | TDgr t =>
      simp only [gop]
      rw [h b hb]
    | CX c t =>
      simp only [gop]
      rw [h (cxPat c t b) (by rw [cxPat_length, hb])]
    | Toffoli cs t =>
      simp only [gop]
      rw [h (tofPat cs t b) (by rw [tofPat_length, hb])]
    | Composite gs =>
      simp only [gop]
      have hcg : ∀ g2 ∈ gs, ∀ (f3 f4 : List Bool → Amp),
          (∀ b2, b2.length = n → f3 b2 = f4 b2) →
          ∀ b2, b2.length = n → gop g2 f3 b2 = gop g2 f4 b2 := by
        intro g2 hg2 f3 f4 h34 b2 hb2
        refine ihN g2 ?_ f3 f4 h34 b2 hb2
        have h1 : sizeOf g2 < sizeOf gs := List.sizeOf_lt_of_mem hg2
        have h2 : sizeOf (Gate.Composite gs) = 1 + sizeOf gs := by simp
        omega
      clear hg
      induction gs generalizing f1 f2 b with
      | nil => simp only [gopList]; exact h b hb
      | cons g2 rest ih =>
        simp only [gopList]
        exact ih (gop g2 f1) (gop g2 f2)
          (fun b2 hb2 => hcg g2 (by simp) f1 f2 h b2 hb2) b hb
          (fun g3 hg3 => hcg g3 (by simp [hg3]))

/-- Congruence for gate sequences. -/
theorem gopList_congr (gs : List Gate) {n : ℕ} (f1 f2 : List Bool → Amp)
    (h : ∀ b, b.length = n → f1 b = f2 b) :
    ∀ b, b.length = n → gopList gs f1 b = gopList gs f2 b := by
  induction gs generalizing f1 f2 with
  | nil => simpa [gopList] using h
  | cons g rest ih =>
    intro b hb
    simp only [gopList]
    exact ih (gop g f1) (gop g f2) (gop_congr g f1 f2 h) b hb

/-- Per-ket semantics of a pure pattern-permutation gate. -/
theorem ketSem_perm {n : ℕ} {σ : List Bool → List Bool}
    (hlen : ∀ b, (σ b).length = b.length)
    (hinv : ∀ b, b.length = n → σ (σ b) = b)
    (g : Gate) (hgop : ∀ f b, gop g f b = f (σ b))
    (happ : ∀ k : Ket, k.bits.length = n →
      apply_gate_to_ket g k = some (GateKetResult.ket ⟨k.amplitude, σ k.bits⟩)) :
    KetSem g n := by
  intro k hk
  refine ⟨[⟨k.amplitude, σ k.bits⟩], by rw [happ k hk]; rfl, ?_, ?_⟩
  · intro x hx
    rw [List.mem_singleton] at hx
    rw [hx]
    show (σ k.bits).length = n
    rw [hlen, hk]
  · intro b hb
    rw [ampOf_cons, ampOf_nil, add_zero, hgop]
    unfold ampDelta
    have hiff : (⟨k.amplitude, σ k.bits⟩ : Ket).bits = b ↔ k.bits = σ b := by
      show σ k.bits = b ↔ k.bits = σ b
      constructor
      · intro h
        rw [← h, hinv k.bits hk]
      · intro h
        rw [h, hinv b hb]
    by_cases hcond : (⟨k.amplitude, σ k.bits⟩ : Ket).bits = b
    · rw [if_pos hcond, if_pos (hiff.mp hcond)]
    · rw [if_neg hcond, if_neg (fun hcc => hcond (hiff.mpr hcc))]

theorem ketSem_X {t n : ℕ} (ht : t < n) : KetSem (Gate.X t) n := by
  refine ketSem_perm (flipPat_length t) (fun b hb => flipPat_flipPat (hb ▸ ht)) _
    (fun f b => by simp only [gop]) ?_
  intro k hk
  exact apply_X_eq (by rw [hk]; exact ht)

theorem ketSem_CX {c t n : ℕ} (hc : c < n) (ht : t < n) (hct : c ≠ t) :
    KetSem (Gate.CX c t) n := by
  refine ketSem_perm (cxPat_length c t) (fun b hb => cxPat_involutive hct (hb ▸ ht)) _
    (fun f b => by simp only [gop]) ?_
  intro k hk
  exact apply_CX_eq (by rw [hk]; exact hc) (by rw [hk]; exact ht)

theorem ketSem_Toffoli {cs : List ℕ} {t n : ℕ} (hcs : ∀ c ∈ cs, c < n) (ht : t < n)
    (hts : t ∉ cs) : KetSem (Gate.Toffoli cs t) n := by
  refine ketSem_perm (tofPat_length cs t) (fun b hb => tofPat_involutive hts (hb ▸ ht)) _
    (fun f b => by simp only [gop]) ?_
  intro k hk
  exact apply_Toffoli_eq (fun c hcm => by rw [hk]; exact hcs c hcm) (by rw [hk]; exact ht)

theorem ketSem_T {t n : ℕ} (ht : t < n) : KetSem (Gate.T t) n := by
  intro k hk
  have htk : t < k.bits.length := by rw [hk]; exact ht
  refine ⟨[if k.bits.getD t false then ⟨k.amplitude * Amp.zeta, k.bits⟩ else k],
    by rw [apply_T_eq htk]; rfl, ?_, ?_⟩
  · intro x hx
    rw [List.mem_singleton] at hx
    rw [hx]
    by_cases hb : k.bits.getD t false = true
    · rw [if_pos hb]
      exact hk
    · rw [if_neg hb]
      exact hk
  · intro b hb
    rw [ampOf_cons, ampOf_nil, add_zero]
    simp only [gop]
    unfold ampDelta
    have hbits : (if k.bits.getD t false = true then
        (⟨k.amplitude * Amp.zeta, k.bits⟩ : Ket) else k).bits = k.bits := by
      by_cases h2 : k.bits.getD t false = true
      · rw [if_pos h2]
      · rw [if_neg h2]
    rw [hbits]
    by_cases hkb : k.bits = b
    · subst hkb
      rw [if_pos rfl, if_pos rfl]
      by_cases h2 : k.bits.getD t false = true
      · rw [if_pos h2, if_pos h2]
      · rw [if_neg h2, if_neg h2]
    · rw [if_neg hkb, if_neg hkb]
      by_cases h3 : b.getD t false = true
      · rw [if_pos h3, zero_mul]
      · rw [if_neg h3]

theorem ketSem_TDgr {t n : ℕ} (ht : t < n) : KetSem (Gate.TDgr t) n := by
  intro k hk
  have htk : t < k.bits.length := by rw [hk]; exact ht
  refine ⟨[if k.bits.getD t false then ⟨k.amplitude * Amp.zetaConj, k.bits⟩ else k],
    by rw [apply_TDgr_eq htk]; rfl, ?_, ?_⟩
  · intro x hx
    rw [List.mem_singleton] at hx
    rw [hx]
    by_cases hb : k.bits.getD t false = true
    · rw [if_pos hb]
      exact hk
    · rw [if_neg hb]
      exact hk
  · intro b hb
    rw [ampOf_cons, ampOf_nil, add_zero]
    simp only [gop]
    unfold ampDelta
    have hbits : (if k.bits.getD t false = true then
        (⟨k.amplitude * Amp.zetaConj, k.bits⟩ : Ket) else k).bits = k.bits := by
      by_cases h2 : k.bits.getD t false = true
      · rw [if_pos h2]
      · rw [if_neg h2]
    rw [hbits]
    by_cases hkb : k.bits = b
    · subst hkb
      rw [if_pos rfl, if_pos rfl]
      by_cases h2 : k.bits.getD t false = true
      · rw [if_pos h2, if_pos h2]
      · rw [if_neg h2, if_neg h2]
    · rw [if_neg hkb, if_neg hkb]
      by_cases h3 : b.getD t false = true
      · rw [if_pos h3, zero_mul]
      · rw [if_neg h3]

theorem ketSem_H {t n : ℕ} (ht : t < n) : KetSem (Gate.H t) n := by
  intro k hk
  have htk : t < k.bits.length := by rw [hk]; exact ht
  refine ⟨[⟨(if k.bits.getD t false then k.amplitude * (-1) else k.amplitude) * Amp.invSqrt2,
      k.bits⟩, ⟨k.amplitude * Amp.invSqrt2, flipPat t k.bits⟩],
    by rw [apply_H_eq htk]; rfl, ?_, ?_⟩
  · intro x hx
    rcases List.mem_cons.mp hx with h | h
    · rw [h]
      exact hk
    · rw [List.mem_singleton] at h
      rw [h]
      show (flipPat t k.bits).length = n
      rw [flipPat_length]
      exact hk
  · intro b hb
    have hbt : t < b.length := by rw [hb]; exact ht
    rw [ampOf_cons, ampOf_cons, ampOf_nil, add_zero]
    simp only [gop]
    unfold ampDelta
    by_cases hkb : k.bits = b
    · subst hkb
      have hne2 : k.bits ≠ flipPat t k.bits := fun h => flipPat_ne htk h.symm
      by_cases h2 : k.bits.getD t false = true <;>
        (simp [h2, flipPat_ne htk, hne2]; try ring)
    · by_cases hfb : flipPat t k.bits = b
      · have hbk : k.bits = flipPat t b := by rw [← hfb, flipPat_flipPat htk]
        have hgd : b.getD t false = !k.bits.getD t false := by
          rw [← hfb, flipPat_getD htk]
        simp only [if_neg hkb, if_pos hfb, if_pos hbk, hgd]
        by_cases h2 : k.bits.getD t false = true <;> (simp [h2]; try ring)
      · have hkfb : k.bits ≠ flipPat t b := fun h => hfb (by rw [h, flipPat_flipPat hbt])
        by_cases h2 : b.getD t false = true <;>
          (simp [h2, hkb, hfb, hkfb]; try ring)

/-- One composite stage (the inner pop-loop) realizes the ideal action on
the whole current collection. -/
theorem stage_sem {g : Gate} {n : ℕ} (hsem : KetSem g n) :
    ∀ ks : List Ket, (∀ k ∈ ks, k.bits.length = n) →
      ∃ out, stageRev g ks = some out ∧ (∀ x ∈ out, x.bits.length = n) ∧
        ∀ b, b.length = n → ampOf out b = gop g (ampOf ks) b := by
  intro ks
  induction ks with
  | nil =>
    intro _
    refine ⟨[], by simp [stageRev, stageRevF], by simp, ?_⟩
    intro b hb
    have h0 : ampOf [] = fun _ => (0 : Amp) := funext (fun x => rfl)
    rw [h0, gop_zero]
  | cons k rest ih =>
    intro hlen
    obtain ⟨out1, hout1, hlen1, hsem1⟩ := hsem k (hlen k (by simp))
    obtain ⟨outr, houtr, hlenr, hsemr⟩ := ih (fun x hx => hlen x (by simp [hx]))
    rw [Option.bind_eq_some] at hout1
    rcases hout1 with ⟨r, happ, hres⟩
    refine ⟨out1 ++ outr, ?_, ?_, ?_⟩
    · simp only [stageRev] at houtr
      simp only [stageRev, stageRevF, happ, hres, houtr]
    · intro x hx
      rcases List.mem_append.mp hx with h | h
      · exact hlen1 x h
      · exact hlenr x h
    · intro b hb
      rw [ampOf_append, hsem1 b hb, hsemr b hb,
        show ampOf (k :: rest) = fun x => ampDelta k x + ampOf rest x from
          funext (fun x => ampOf_cons k rest x),
        gop_add]

/-- The stage loop of a composite gate, iterated over its gate list. -/
theorem runStages_sem {n : ℕ} : ∀ gs : List Gate, (∀ g ∈ gs, KetSem g n) →
    ∀ cur : List Ket, (∀ k ∈ cur, k.bits.length = n) →
      ∃ out, runStages gs cur = some out ∧ (∀ x ∈ out, x.bits.length = n) ∧
        ∀ b, b.length = n → ampOf out b = gopList gs (ampOf cur) b := by
  intro gs
  induction gs with
  | nil =>
    intro _ cur hcur
    exact ⟨cur, by simp [runStages, runStagesF], hcur, fun b hb => by simp [gopList]⟩
  | cons g rest ih =>
    intro hsem cur hcur
    obtain ⟨out1, hout1, hlen1, hsem1⟩ := stage_sem (hsem g (by simp)) cur.reverse
      (fun x hx => hcur x (List.mem_reverse.mp hx))
    obtain ⟨out2, hout2, hlen2, hsem2⟩ := ih (fun g2 hg2 => hsem g2 (by simp [hg2]))
      out1 hlen1
    refine ⟨out2, ?_, hlen2, ?_⟩
    · unfold stageRev at hout1
      unfold runStages at hout2 ⊢
      simp only [runStagesF]
      rw [hout1]
      exact hout2
    · intro b hb
      rw [hsem2 b hb]
      simp only [gopList]
      refine gopList_congr rest _ _ ?_ b hb
      intro b2 hb2
      rw [hsem1 b2 hb2]
      refine gop_congr g _ _ ?_ b2 hb2
      intro b3 _
      exact ampOf_reverse cur b3

/-- Every well-formed gate satisfies the per-ket semantic property. -/
theorem ketSem_all : ∀ (g : Gate) (n : ℕ), GateWF g n → KetSem g n := by
  suffices hs : ∀ (N : ℕ) (g : Gate), sizeOf g < N → ∀ n, GateWF g n → KetSem g n from
    fun g n h => hs (sizeOf g + 1) g (by omega) n h
  intro N
  induction N with
  | zero => intro g hg; omega
  | succ M ihN =>
    intro g hg n hWF
    cases g with
    | H t => exact ketSem_H (by unfold GateWF at hWF; exact hWF)
    | X t => exact ketSem_X (by unfold GateWF at hWF; exact hWF)
    | T t => exact ketSem_T (by unfold GateWF at hWF; exact hWF)
    | TDgr t => exact ketSem_TDgr (by unfold GateWF at hWF; exact hWF)
    | CX c t =>
      unfold GateWF at hWF
      exact ketSem_CX hWF.1 hWF.2.1 hWF.2.2
    | Toffoli cs t =>
      unfold GateWF at hWF
      exact ketSem_Toffoli hWF.1 hWF.2.1 hWF.2.2
    | Composite gs =>
      intro k hk
      have hWF2 : ∀ g2 ∈ gs, GateWF g2 n := by
        intro g2 hg2
        have := hWF
        unfold GateWF at this
        exact this g2 hg2
      have hsems : ∀ g2 ∈ gs, KetSem g2 n := by
        intro g2 hg2
        refine ihN g2 ?_ n (hWF2 g2 hg2)
        have h1 : sizeOf g2 < sizeOf gs := List.sizeOf_lt_of_mem hg2
        have h2 : sizeOf (Gate.Composite gs) = 1 + sizeOf gs := by simp
        omega
      obtain ⟨out, hout, hlenout, hsemout⟩ := runStages_sem gs hsems [k]
        (by intro x hx; rw [List.mem_singleton] at hx; rw [hx]; exact hk)
      refine ⟨out, ?_, hlenout, ?_⟩
      · show (apply_gate_to_ket (Gate.Composite gs) k).bind resultKets = some out
        rw [apply_composite_eq, hout]
        cases out with
        | nil => rfl
        | cons k1 tl =>
          cases tl with
          | nil => rfl
          | cons k2 tl2 => rfl
      · intro b hb
        rw [hsemout b hb]
        simp only [gop]
        refine gopList_congr gs _ _ ?_ b hb
        intro b2 _
        rw [ampOf_cons, ampOf_nil, add_zero]

/-! ### Tolerance-drop tracking

`add_or_insert` discards a nonzero accumulated amplitude whenever a merge
lands in the interval (0, 1e-6].  The following executable checkers flag
exactly the insertions where that never happens; only under them is the
amplitude function of a state preserved by re-insertion. -/

/-- True when inserting `k` into the collection either finds no entry with
the same bits, or the merged amplitude is kept (above tolerance) or is an
exact cancellation to zero. -/
def insOk (k : Ket) : List Ket → Bool
  | [] => true
  | j :: rest =>
    if j.bits = k.bits then
      (Amp.normGt (j.amplitude + k.amplitude) (1/1000000) ||
        decide (j.amplitude + k.amplitude = 0))
    else insOk k rest

/-- True when `add_or_insert s k` discards no nonzero accumulation. -/
def addOk (s : State) (k : Ket) : Bool :=
  decide (Amp.normSq k.amplitude = 0) || insOk k s.kets

/-- True when folding the whole list of kets into `acc` via `add_or_insert`
discards no nonzero accumulation at any step. -/
def insListOk : List Ket → State → Bool
  | [], _ => true
  | k :: rest, acc => addOk acc k && insListOk rest (acc.add_or_insert k)

/-- True when the per-ket loop of `apply_gate_to_state` discards no nonzero
accumulation while re-inserting the produced kets. -/
def applyOkLoop (g : Gate) : List Ket → State → Bool
  | [], _ => true
  | k :: rest, acc =>
    match (apply_gate_to_ket g k).bind resultKets with
    | some outL =>
      insListOk outL acc && applyOkLoop g rest (outL.foldl State.add_or_insert acc)
    | none => false

/-- True when `apply_gate_to_state s g` discards no nonzero accumulation. -/
def DropFree (s : State) (g : Gate) : Bool :=
  applyOkLoop g s.kets (State.new s.num_qubits)

theorem ampOf_insertKets {k : Ket} {l : List Ket} (hok : insOk k l = true)
    (b : List Bool) :
    ampOf (State.insertKets k l) b = ampOf l b + ampDelta k b := by
  induction l with
  | nil =>
    rw [ampOf_nil]
    unfold State.insertKets
    rw [ampOf_cons, ampOf_nil, add_zero, zero_add]
  | cons j rest ih =>
    unfold State.insertKets
    unfold insOk at hok
    by_cases hj : j.bits = k.bits
    · rw [if_pos hj] at hok ⊢
      rcases Bool.eq_false_or_eq_true (Amp.normGt (j.amplitude + k.amplitude) (1/1000000))
        with hc | hc
      · rw [hc, if_pos rfl, ampOf_cons, ampOf_cons]
        unfold ampDelta
        rw [hj]
        by_cases hb : k.bits = b
        · rw [if_pos hb, if_pos hb, if_pos hb]
          ring
        · rw [if_neg hb, if_neg hb, if_neg hb]
          ring
      · rw [hc, if_neg Bool.false_ne_true]
        rw [hc] at hok
        have hzero : j.amplitude + k.amplitude = 0 := by
          rw [Bool.false_or, decide_eq_true_eq] at hok
          exact hok
        rw [ampOf_cons]
        unfold ampDelta
        rw [hj]
        by_cases hb : k.bits = b
        · rw [if_pos hb, if_pos hb]
          linear_combination (-1 : Amp) * hzero
        · rw [if_neg hb, if_neg hb]
          ring
    · rw [if_neg hj] at hok ⊢
      rw [ampOf_cons, ampOf_cons, ih hok]
      ring

theorem ampOf_add_or_insert {s : State} {k : Ket} (hok : addOk s k = true)
    (b : List Bool) :
    ampOf (s.add_or_insert k).kets b = ampOf s.kets b + ampDelta k b := by
  unfold State.add_or_insert
  unfold addOk at hok
  by_cases hz : Amp.normSq k.amplitude = 0
  · rw [if_pos hz]
    have hk0 : k.amplitude = 0 := (Amp.normSq_eq_zero_iff k.amplitude).mp hz
    unfold ampDelta
    rw [hk0]
    by_cases hb : k.bits = b
    · rw [if_pos hb, add_zero]
    · rw [if_neg hb, add_zero]
  · rw [if_neg hz]
    rw [decide_eq_false hz, Bool.false_or] at hok
    exact ampOf_insertKets hok b

theorem insertKets_width {n : ℕ} {k : Ket} {l : List Ket} (hk : k.bits.length = n)
    (hl : ∀ x ∈ l, x.bits.length = n) :
    ∀ x ∈ State.insertKets k l, x.bits.length = n := by
  induction l with
  | nil =>
    intro x hx
    unfold State.insertKets at hx
    rw [List.mem_singleton] at hx
    rw [hx]
    exact hk
  | cons j rest ih =>
    intro x hx
    unfold State.insertKets at hx
    by_cases hj : j.bits = k.bits
    · rw [if_pos hj] at hx
      rcases Bool.eq_false_or_eq_true (Amp.normGt (j.amplitude + k.amplitude) (1/1000000))
        with hc | hc
      · rw [hc, if_pos rfl, List.mem_cons] at hx
        rcases hx with h | h
        · rw [h]
          show j.bits.length = n
          exact hl j (by simp)
        · exact hl x (by simp [h])
      · rw [hc, if_neg Bool.false_ne_true] at hx
        exact hl x (by simp [hx])
    · rw [if_neg hj, List.mem_cons] at hx
      rcases hx with h | h
      · rw [h]
        exact hl j (by simp)
      · exact ih (fun y hy => hl y (by simp [hy])) x h

theorem add_or_insert_width {n : ℕ} {s : State} {k : Ket} (hk : k.bits.length = n)
    (hs : ∀ x ∈ s.kets, x.bits.length = n) :
    ∀ x ∈ (s.add_or_insert k).kets, x.bits.length = n := by
  unfold State.add_or_insert
  by_cases hz : Amp.normSq k.amplitude = 0
  · rw [if_pos hz]
    exact hs
  · rw [if_neg hz]
    exact insertKets_width hk hs

theorem foldl_add_width {n : ℕ} {outs : List Ket} {acc : State}
    (houts : ∀ x ∈ outs, x.bits.length = n) (hacc : ∀ x ∈ acc.kets, x.bits.length = n) :
    ∀ x ∈ (outs.foldl State.add_or_insert acc).kets, x.bits.length = n := by
  induction outs generalizing acc with
  | nil => exact hacc
  | cons k rest ih =>
    rw [List.foldl_cons]
    exact ih (fun x hx => houts x (by simp [hx]))
      (add_or_insert_width (houts k (by simp)) hacc)

theorem add_or_insert_num_qubits (s : State) (k : Ket) :
    (s.add_or_insert k).num_qubits = s.num_qubits := by
  unfold State.add_or_insert
  by_cases hz : Amp.normSq k.amplitude = 0
  · rw [if_pos hz]
  · rw [if_neg hz]

theorem foldl_add_num_qubits (outs : List Ket) (acc : State) :
    (outs.foldl State.add_or_insert acc).num_qubits = acc.num_qubits := by
  induction outs generalizing acc with
  | nil => rfl
  | cons k rest ih =>
    rw [List.foldl_cons, ih, add_or_insert_num_qubits]

theorem ampOf_foldl_inserts {outs : List Ket} {acc : State}
    (hok : insListOk outs acc = true) (b : List Bool) :
    ampOf ((outs.foldl State.add_or_insert acc).kets) b = ampOf acc.kets b + ampOf outs b := by
  induction outs generalizing acc with
  | nil =>
    rw [List.foldl_nil, ampOf_nil, add_zero]
  | cons k rest ih =>
    unfold insListOk at hok
    rw [Bool.and_eq_true] at hok
    rw [List.foldl_cons, ih hok.2, ampOf_add_or_insert hok.1, ampOf_cons]
    ring

/-- The per-ket loop of `apply_gate_to_state` realizes the ideal action
when no tolerance-drop occurs. -/
theorem applyKetsLoop_sem {g : Gate} {n : ℕ} (hsem : KetSem g n) :
    ∀ (l : List Ket) (acc : State), (∀ k ∈ l, k.bits.length = n) →
      (∀ x ∈ acc.kets, x.bits.length = n) → applyOkLoop g l acc = true →
      ∃ s', applyKetsLoop g l acc = some s' ∧ s'.num_qubits = acc.num_qubits ∧
        (∀ x ∈ s'.kets, x.bits.length = n) ∧
        ∀ b, b.length = n → ampOf s'.kets b = ampOf acc.kets b + gop g (ampOf l) b := by
  intro l
  induction l with
  | nil =>
    intro acc _ hacc _
    refine ⟨acc, rfl, rfl, hacc, ?_⟩
    intro b hb
    have h0 : ampOf [] = fun _ => (0 : Amp) := funext (fun x => rfl)
    rw [h0, gop_zero, add_zero]
  | cons k rest ih =>
    intro acc hl hacc hok
    obtain ⟨outs, hbind, hlenouts, hsemouts⟩ := hsem k (hl k (by simp))
    unfold applyOkLoop at hok
    rw [hbind] at hok
    rw [Bool.and_eq_true] at hok
    rcases Option.bind_eq_some.mp hbind with ⟨r, happ, hres⟩
    have hacc2 : ∀ x ∈ ((outs.foldl State.add_or_insert acc).kets), x.bits.length = n :=
      foldl_add_width hlenouts hacc
    obtain ⟨s', hrun, hq, hwidth, hsem2⟩ := ih (outs.foldl State.add_or_insert acc)
      (fun x hx => hl x (by simp [hx])) hacc2 hok.2
    refine ⟨s', ?_, by rw [hq, foldl_add_num_qubits], hwidth, ?_⟩
    · simp only [applyKetsLoop, happ, hres]
      exact hrun
    · intro b hb
      rw [hsem2 b hb, ampOf_foldl_inserts hok.1, hsemouts b hb,
        show ampOf (k :: rest) = fun x => ampDelta k x + ampOf rest x from
          funext (fun x => ampOf_cons k rest x),
        gop_add]
      ring

/-- `apply_gate_to_state` with a well-formed gate on a width-consistent
state succeeds and realizes the ideal action when no tolerance-drop
occurs; the result satisfies the storage invariant. -/
theorem apply_sem {s : State} {g : Gate} (hWF : GateWF g s.num_qubits)
    (hlen : ∀ k ∈ s.kets, k.bits.length = s.num_qubits)
    (hdf : DropFree s g = true) :
    ∃ s', apply_gate_to_state s g = some s' ∧ s'.num_qubits = s.num_qubits ∧
      (∀ x ∈ s'.kets, x.bits.length = s.num_qubits) ∧ KetsInv s'.kets ∧
      ∀ b, b.length = s.num_qubits → ampOf s'.kets b = gop g (ampOf s.kets) b := by
  obtain ⟨s', hrun, hq, hwidth, hsem2⟩ :=
    applyKetsLoop_sem (ketSem_all g s.num_qubits hWF) s.kets (State.new s.num_qubits)
      hlen (by simp [State.new]) hdf
  refine ⟨s', hrun, by rw [hq]; rfl, hwidth, KetsInv_applyKetsLoop ⟨by simp [State.new],
    by simp [State.new]⟩ hrun, ?_⟩
  intro b hb
  rw [hsem2 b hb]
  show ampOf [] b + _ = _
  rw [ampOf_nil, zero_add]

/-! ### From equal amplitude functions to `are_equivalent` -/

theorem ketEquiv_self (k : Ket) : Ket.are_equivalent k k = true := by
  unfold Ket.are_equivalent
  rw [Bool.and_eq_true, decide_eq_true_eq]
  refine ⟨rfl, ?_⟩
  rw [show k.amplitude + -k.amplitude = 0 from by ring]
  decide

theorem zip_self_all (l : List Ket) :
    ((l.zip l).all fun p => p.1.are_equivalent p.2) = true := by
  induction l with
  | nil => rfl
  | cons k rest ih =>
    rw [List.zip_cons_cons, List.all_cons, ih, ketEquiv_self]
    rfl

/-- Two invariant-satisfying, width-consistent collections with the same
amplitude function are physically equivalent. -/
theorem are_equivalent_of_ampOf_eq {l1 l2 : List Ket} {n : ℕ}
    (h1 : KetsInv l1) (h2 : KetsInv l2)
    (hw1 : ∀ k ∈ l1, k.bits.length = n) (hw2 : ∀ k ∈ l2, k.bits.length = n)
    (hamp : ∀ b, b.length = n → ampOf l1 b = ampOf l2 b) :
    State.are_equivalent ⟨l1, n⟩ ⟨l2, n⟩ = true := by
  have hdir : ∀ (lA lB : List Ket), KetsInv lA → KetsInv lB →
      (∀ k ∈ lA, k.bits.length = n) →
      (∀ b, b.length = n → ampOf lA b = ampOf lB b) → ∀ k ∈ lA, k ∈ lB := by
    intro lA lB hA hB hwA hampAB k hk
    have hlen : k.bits.length = n := hwA k hk
    have hampk : ampOf lA k.bits = k.amplitude := ampOf_eq_of_mem hA.1 hk
    have hne : ampOf lB k.bits ≠ 0 := by
      rw [← hampAB k.bits hlen, hampk]
      exact hA.2 k hk
    obtain ⟨j, hj, hjb⟩ := exists_mem_of_ampOf_ne_zero hne
    have hjamp : j.amplitude = k.amplitude := by
      have hje := ampOf_eq_of_mem hB.1 hj
      rw [hjb] at hje
      rw [← hje, ← hampAB k.bits hlen, hampk]
    have hjk : j = k := Ket.ext hjamp hjb
    rw [← hjk]
    exact hj
  have hmem : ∀ k, k ∈ l1 ↔ k ∈ l2 := fun k =>
    ⟨fun hk => hdir l1 l2 h1 h2 hw1 hamp k hk,
     fun hk => hdir l2 l1 h2 h1 hw2 (fun b hb => (hamp b hb).symm) k hk⟩
  have hperm : l1.Perm l2 :=
    (List.perm_ext_iff_of_nodup (List.Nodup.of_map Ket.bits h1.1)
      (List.Nodup.of_map Ket.bits h2.1)).mpr hmem
  have hsort : l1.mergeSort ketLe = l2.mergeSort ketLe := mergeSort_eq_of_perm hperm h1.1
  unfold State.are_equivalent
  rw [if_neg (by simp)]
  rw [if_neg (by simp [hperm.length_eq])]
  show ((l1.mergeSort ketLe).zip (l2.mergeSort ketLe)).all
    (fun p => p.1.are_equivalent p.2) = true
  rw [hsort]
  exact zip_self_all _

/-! ### C5 — applying H twice -/

/-- C5 amended: applying `H{t}` twice to an invariant-satisfying state
yields a state equivalent to the original, provided neither application
drops a nonzero accumulated amplitude at the 1e-6 tolerance. -/
theorem C5_H_self_inverse (s : State) (t : ℕ) (ht : t < s.num_qubits)
    (hw : ∀ k ∈ s.kets, k.bits.length = s.num_qubits) (hinv : KetsInv s.kets)
    (s1 s2 : State)
    (h1 : apply_gate_to_state s (Gate.H t) = some s1)
    (hd1 : DropFree s (Gate.H t) = true)
    (h2 : apply_gate_to_state s1 (Gate.H t) = some s2)
    (hd2 : DropFree s1 (Gate.H t) = true) :
    State.are_equivalent s2 s = true := by
  obtain ⟨s1', e1, hq1, hw1, hI1, hsem1⟩ :=
    apply_sem (s := s) (g := Gate.H t) (by unfold GateWF; exact ht) hw hd1
  rw [h1, Option.some_inj] at e1
  subst e1
  have ht1 : t < s1.num_qubits := by rw [hq1]; exact ht
  obtain ⟨s2', e2, hq2, hw2, hI2, hsem2⟩ :=
    apply_sem (s := s1) (g := Gate.H t) (by unfold GateWF; exact ht1)
      (by rw [hq1]; exact hw1) hd2
  rw [h2, Option.some_inj] at e2
  subst e2
  have hq2' : s2.num_qubits = s.num_qubits := by rw [hq2, hq1]
  have hampeq : ∀ b, b.length = s.num_qubits → ampOf s2.kets b = ampOf s.kets b := by
    intro b hb
    have hb1 : b.length = s1.num_qubits := by rw [hq1]; exact hb
    rw [hsem2 b hb1]
    have hcong := gop_congr (Gate.H t) (ampOf s1.kets) (gop (Gate.H t) (ampOf s.kets))
      (fun b2 hb2 => hsem1 b2 hb2) b hb
    rw [hcong]
    exact gop_H_H (ampOf s.kets) (by rw [hb]; exact ht)
  have hE := are_equivalent_of_ampOf_eq hI2 hinv
    (fun k hk => by rw [← hq1]; exact hw2 k hk) hw hampeq
  have hs2eta : s2 = (⟨s2.kets, s.num_qubits⟩ : State) := by
    ext
    · rfl
    · exact hq2'
  rw [hs2eta]
  exact hE

/-- Witness for C5: the 1-qubit ground state goes to the uniform
superposition and back, drop-free, and the result is equivalent to the
original. -/
theorem C5_H_self_inverse_witness :
    State.are_equivalent ⟨[⟨1, [false]⟩], 1⟩ ⟨[⟨1, [false]⟩], 1⟩ = true :=
  C5_H_self_inverse ⟨[⟨1, [false]⟩], 1⟩ 0 (by decide) (by decide) (by decide)
    ⟨[⟨Amp.invSqrt2, [false]⟩, ⟨Amp.invSqrt2, [true]⟩], 1⟩ ⟨[⟨1, [false]⟩], 1⟩
    (by decide) (by decide) (by decide) (by decide)

/-- C5 counterexample: on the state with amplitude 5e-7 on each of the two
1-qubit patterns, the first H drops everything (the merged amplitudes are
0 and ~7.07e-7 ≤ 1e-6), so H applied twice gives the empty state, which is
not equivalent to the original. -/
theorem C5_H_self_inverse_counterexample :
    apply_gate_to_state ⟨[⟨⟨1/2000000, 0, 0, 0⟩, [false]⟩, ⟨⟨1/2000000, 0, 0, 0⟩, [true]⟩], 1⟩
        (Gate.H 0) = some ⟨[], 1⟩ ∧
    apply_gate_to_state ⟨[], 1⟩ (Gate.H 0) = some ⟨[], 1⟩ ∧
    State.are_equivalent ⟨[], 1⟩
      ⟨[⟨⟨1/2000000, 0, 0, 0⟩, [false]⟩, ⟨⟨1/2000000, 0, 0, 0⟩, [true]⟩], 1⟩ = false := by
  refine ⟨by decide, by decide, by decide⟩

/-- Witness for C7: the order-independence clause at a concrete two-ket
state and its reversal. -/
theorem C7_are_equivalent_spec_witness :
    State.are_equivalent ⟨[⟨1, [true]⟩, ⟨1, [false]⟩], 1⟩
        ⟨[⟨1, [false]⟩, ⟨1, [true]⟩], 1⟩ =
      State.are_equivalent ⟨[⟨1, [false]⟩, ⟨1, [true]⟩], 1⟩
        ⟨[⟨1, [false]⟩, ⟨1, [true]⟩], 1⟩ :=
  (C7_are_equivalent_spec ⟨[⟨1, [false]⟩, ⟨1, [true]⟩], 1⟩
      ⟨[⟨1, [false]⟩, ⟨1, [true]⟩], 1⟩).2.2.2
    [⟨1, [true]⟩, ⟨1, [false]⟩] (by decide) (by decide)

/-! ### C4 — norm preservation

The exact sum of squared amplitude magnitudes over all bit patterns is
preserved by the ideal action of every well-formed gate; combined with
`apply_sem` this settles norm preservation of `apply_gate_to_state` in the
drop-free case.  Two concrete scenarios refute the claim as stated: a CX
gate whose control equals its target merges two basis states (norm 2
becomes 4, with no tolerance drop involved), and a tolerance drop can
erase an entire state of nonzero norm. -/

/-- Halving in ℚ[√2]. -/
def halfPair (x : ℚ × ℚ) : ℚ × ℚ := (x.1 / 2, x.2 / 2)

/-- The polarization cross term of `normSq`. -/
def crossSq (z w : Amp) : ℚ × ℚ :=
  Amp.normSq (z + w) - Amp.normSq z - Amp.normSq w

theorem crossSq_comm (z w : Amp) : crossSq z w = crossSq w z := by
  unfold crossSq
  rw [add_comm z w]
  ring

/-- The squared magnitude of a Hadamard output amplitude, split into the
two incoming squared magnitudes and a signed cross term. -/
theorem normSq_H_point (c : Bool) (z w : Amp) :
    Amp.normSq ((if c then -z else z) * Amp.invSqrt2 + w * Amp.invSqrt2) =
      halfPair (Amp.normSq z + Amp.normSq w +
        (if c then -crossSq z w else crossSq z w)) := by
  cases c
  all_goals
    unfold halfPair crossSq Amp.normSq Amp.invSqrt2
    apply Prod.ext <;>
      simp [Amp.mul_def, Amp.add_def, Amp.neg_def, Prod.fst, Prod.snd] <;> ring

theorem halfPair_double (x : ℚ × ℚ) : halfPair (x + x) = x := by
  unfold halfPair
  apply Prod.ext <;> (simp; try ring)

theorem sum_map_congr {h1 h2 : List Bool → ℚ × ℚ} :
    ∀ l : List (List Bool), (∀ b ∈ l, h1 b = h2 b) →
      (l.map h1).sum = (l.map h2).sum := by
  intro l h
  rw [List.map_congr_left h]

theorem sum_map_add (l : List (List Bool)) (h1 h2 : List Bool → ℚ × ℚ) :
    (l.map fun b => h1 b + h2 b).sum = (l.map h1).sum + (l.map h2).sum := by
  induction l with
  | nil => simp
  | cons b rest ih =>
    simp only [List.map_cons, List.sum_cons, ih]
    ring

theorem sum_map_neg (l : List (List Bool)) (h : List Bool → ℚ × ℚ) :
    (l.map fun b => -h b).sum = -(l.map h).sum := by
  induction l with
  | nil => simp
  | cons b rest ih =>
    simp only [List.map_cons, List.sum_cons, ih]
    ring

theorem sum_map_halfPair (l : List (List Bool)) (h : List Bool → ℚ × ℚ) :
    (l.map fun b => halfPair (h b)).sum = halfPair (l.map h).sum := by
  induction l with
  | nil =>
    show (0 : ℚ × ℚ) = halfPair 0
    unfold halfPair
    apply Prod.ext <;> simp
  | cons b rest ih =>
    simp only [List.map_cons, List.sum_cons, ih]
    unfold halfPair
    apply Prod.ext <;> simp <;> ring

/-- A length-preserving involution permutes the list of all patterns. -/
theorem allPats_map_perm {n : ℕ} {σ : List Bool → List Bool}
    (hlen : ∀ b : List Bool, b.length = n → (σ b).length = n)
    (hinv : ∀ b : List Bool, b.length = n → σ (σ b) = b) :
    ((allPats n).map σ).Perm (allPats n) := by
  refine (List.perm_ext_iff_of_nodup ?_ (allPats_nodup n)).mpr ?_
  · refine (allPats_nodup n).map_on ?_
    intro x hx y hy hxy
    have hx2 := allPats_mem_iff.mp hx
    have hy2 := allPats_mem_iff.mp hy
    calc x = σ (σ x) := (hinv x hx2).symm
    _ = σ (σ y) := by rw [hxy]
    _ = y := hinv y hy2
  · intro x
    constructor
    · intro hx
      rcases List.mem_map.mp hx with ⟨b, hb, hbe⟩
      rw [← hbe]
      exact allPats_mem_iff.mpr (hlen b (allPats_mem_iff.mp hb))
    · intro hx
      have hx2 := allPats_mem_iff.mp hx
      exact List.mem_map.mpr ⟨σ x, allPats_mem_iff.mpr (hlen x hx2), hinv x hx2⟩

/-- Reindexing a sum over all patterns along a length-preserving
involution. -/
theorem sum_allPats_reindex {n : ℕ} {σ : List Bool → List Bool}
    (hlen : ∀ b : List Bool, b.length = n → (σ b).length = n)
    (hinv : ∀ b : List Bool, b.length = n → σ (σ b) = b)
    (h : List Bool → ℚ × ℚ) :
    ((allPats n).map fun b => h (σ b)).sum = ((allPats n).map h).sum := by
  have hperm := (allPats_map_perm hlen hinv).map h
  rw [List.map_map] at hperm
  exact hperm.sum_eq

/-- A pattern-indexed family that is odd along an involution sums to
zero. -/
theorem sum_allPats_zero {n : ℕ} {σ : List Bool → List Bool}
    (hlen : ∀ b : List Bool, b.length = n → (σ b).length = n)
    (hinv : ∀ b : List Bool, b.length = n → σ (σ b) = b)
    (h : List Bool → ℚ × ℚ)
    (hneg : ∀ b : List Bool, b.length = n → h (σ b) = -h b) :
    ((allPats n).map h).sum = 0 := by
  have h1 : ((allPats n).map fun b => h (σ b)).sum = ((allPats n).map h).sum :=
    sum_allPats_reindex hlen hinv h
  have h2 : ((allPats n).map fun b => h (σ b)).sum =
      ((allPats n).map fun b => -h b).sum :=
    sum_map_congr _ (fun b hb => hneg b (allPats_mem_iff.mp hb))
  have h3 := sum_map_neg (allPats n) h
  have h4 : ((allPats n).map h).sum = -((allPats n).map h).sum := by
    conv_lhs => rw [← h1]
    rw [h2, h3]
  have h5 := congrArg Prod.fst h4
  have h6 := congrArg Prod.snd h4
  simp only [Prod.fst_neg, Prod.snd_neg] at h5 h6
  apply Prod.ext <;> simp <;> linarith

/-- Summing a family supported on a single member of a duplicate-free
list picks out that member. -/
theorem sum_map_single : ∀ (l : List (List Bool)), l.Nodup →
    ∀ (b0 : List Bool), b0 ∈ l → ∀ (h : List Bool → ℚ × ℚ),
      (∀ b ∈ l, b ≠ b0 → h b = 0) → (l.map h).sum = h b0 := by
  intro l
  induction l with
  | nil =>
    intro _ b0 hb0
    cases hb0
  | cons a rest ih =>
    intro hnd b0 hb0 h hz
    have hna : a ∉ rest := (List.nodup_cons.mp hnd).1
    have hndr : rest.Nodup := (List.nodup_cons.mp hnd).2
    simp only [List.map_cons, List.sum_cons]
    rcases List.mem_cons.mp hb0 with heq | hmem
    · have hrest : (rest.map h).sum = 0 := by
        apply List.sum_eq_zero
        intro x hx
        rcases List.mem_map.mp hx with ⟨b, hb, hbe⟩
        rw [← hbe]
        exact hz b (by simp [hb]) (fun hbb0 => hna ((hbb0.trans heq) ▸ hb))
      rw [heq, hrest, add_zero]
    · have ha : h a = 0 :=
        hz a (by simp) (fun hab0 => hna (by rw [hab0]; exact hmem))
      rw [ha, zero_add]
      exact ih hndr b0 hmem h (fun b hb hbb0 => hz b (by simp [hb]) hbb0)

/-- The squared magnitudes of a single delta function sum to the squared
magnitude of its amplitude. -/
theorem sum_allPats_delta {n : ℕ} {k : Ket} (hk : k.bits.length = n) :
    ((allPats n).map fun b => Amp.normSq (ampDelta k b)).sum =
      Amp.normSq k.amplitude := by
  have hz : ∀ b ∈ allPats n, b ≠ k.bits → Amp.normSq (ampDelta k b) = 0 := by
    intro b _ hbk
    unfold ampDelta
    rw [if_neg (fun h => hbk h.symm)]
    exact normSq_zero
  have hs := sum_map_single (allPats n) (allPats_nodup n) k.bits
    (allPats_mem_iff.mpr hk) (fun b => Amp.normSq (ampDelta k b)) hz
  rw [hs]
  show Amp.normSq (ampDelta k k.bits) = Amp.normSq k.amplitude
  unfold ampDelta
  rw [if_pos rfl]

/-- On a deduplicated, width-consistent collection the stored squared
magnitudes sum to the squared magnitudes of the amplitude function over
all patterns. -/
theorem stateNormSq_eq : ∀ {l : List Ket} {n : ℕ}, KetsInv l →
    (∀ k ∈ l, k.bits.length = n) → stateNormSq l = normSqSum (ampOf l) n := by
  intro l
  induction l with
  | nil =>
    intro n _ _
    unfold stateNormSq normSqSum
    rw [List.map_nil, List.sum_nil]
    symm
    apply List.sum_eq_zero
    intro x hx
    rcases List.mem_map.mp hx with ⟨b, _, hbe⟩
    rw [← hbe, ampOf_nil]
    exact normSq_zero
  | cons k rest ih =>
    intro n hinv hw
    have hnd := hinv.1
    simp only [List.map_cons, List.nodup_cons] at hnd
    have hkb : k.bits ∉ rest.map Ket.bits := hnd.1
    have hinvr : KetsInv rest := ⟨hnd.2, fun x hx => hinv.2 x (by simp [hx])⟩
    have hwr : ∀ x ∈ rest, x.bits.length = n := fun x hx => hw x (by simp [hx])
    have hpt : ∀ b ∈ allPats n, Amp.normSq (ampOf (k :: rest) b) =
        Amp.normSq (ampDelta k b) + Amp.normSq (ampOf rest b) := by
      intro b _
      rw [ampOf_cons]
      by_cases hbk : k.bits = b
      · have hr0 : ampOf rest b = 0 :=
          ampOf_eq_zero_of_not_mem (fun j hj hjb =>
            hkb ((hjb.trans hbk.symm) ▸ List.mem_map_of_mem Ket.bits hj))
        rw [hr0, add_zero, normSq_zero, add_zero]
      · have hd0 : ampDelta k b = 0 := by
          unfold ampDelta
          rw [if_neg hbk]
        rw [hd0, zero_add, normSq_zero, zero_add]
    unfold stateNormSq normSqSum
    simp only [List.map_cons, List.sum_cons]
    rw [sum_map_congr _ hpt, sum_map_add, sum_allPats_delta (hw k (by simp))]
    have hihr := ih hinvr hwr
    unfold stateNormSq normSqSum at hihr
    rw [← hihr]

/-- Composing the ideal actions of a list of norm-preserving gates
preserves the norm. -/
theorem gopList_isometry {n : ℕ} : ∀ (gs : List Gate),
    (∀ g ∈ gs, ∀ f : List Bool → Amp, normSqSum (gop g f) n = normSqSum f n) →
    ∀ f, normSqSum (gopList gs f) n = normSqSum f n := by
  intro gs
  induction gs with
  | nil =>
    intro _ f
    simp [gopList]
  | cons g rest ih =>
    intro h f
    simp only [gopList]
    rw [ih (fun g2 hg2 f2 => h g2 (by simp [hg2]) f2) (gop g f)]
    exact h g (by simp) f

/-- The ideal action of every well-formed gate preserves the exact sum of
squared magnitudes over all patterns. -/
theorem gop_isometry : ∀ (g : Gate) (n : ℕ), GateWF g n →
    ∀ f : List Bool → Amp, normSqSum (gop g f) n = normSqSum f n := by
  suffices hs : ∀ (N : ℕ) (g : Gate), sizeOf g < N → ∀ n, GateWF g n →
      ∀ f, normSqSum (gop g f) n = normSqSum f n from
    fun g n h f => hs (sizeOf g + 1) g (by omega) n h f
  intro N
  induction N with
  | zero =>
    intro g hg
    omega
  | succ M ihN =>
    intro g hg n hWF f
    cases g with
    | H t =>
      unfold GateWF at hWF
      unfold normSqSum
      have hflen : ∀ b : List Bool, b.length = n → (flipPat t b).length = n := by
        intro b hb
        rw [flipPat_length]
        exact hb
      have hfinv : ∀ b : List Bool, b.length = n →
          flipPat t (flipPat t b) = b := by
        intro b hb
        exact flipPat_flipPat (by rw [hb]; exact hWF)
      have hpt : ∀ b ∈ allPats n, Amp.normSq (gop (Gate.H t) f b) =
          halfPair (Amp.normSq (f b) + Amp.normSq (f (flipPat t b)) +
            (if b.getD t false then -crossSq (f b) (f (flipPat t b))
             else crossSq (f b) (f (flipPat t b)))) := by
        intro b _
        simp only [gop]
        exact normSq_H_point (b.getD t false) (f b) (f (flipPat t b))
      have hzero : ((allPats n).map fun b =>
          (if b.getD t false then -crossSq (f b) (f (flipPat t b))
           else crossSq (f b) (f (flipPat t b)))).sum = 0 := by
        refine sum_allPats_zero hflen hfinv _ ?_
        intro b hb
        have hgd : (flipPat t b).getD t false = !b.getD t false :=
          flipPat_getD (by rw [hb]; exact hWF)
        have hff : flipPat t (flipPat t b) = b := hfinv b hb
        by_cases hc : b.getD t false = true
        · rw [hgd, hc, hff]
          simp only [Bool.not_true, Bool.false_eq_true, if_false, if_true,
            neg_neg]
          exact crossSq_comm _ _
        · rw [Bool.not_eq_true] at hc
          rw [hgd, hc, hff]
          simp only [Bool.not_false, Bool.false_eq_true, if_false, if_true]
          rw [crossSq_comm]
      rw [sum_map_congr _ hpt, sum_map_halfPair, sum_map_add, sum_map_add,
        sum_allPats_reindex hflen hfinv (fun b => Amp.normSq (f b)), hzero,
        add_zero]
      exact halfPair_double _
    | X t =>
      unfold GateWF at hWF
      unfold normSqSum
      have hpt : ∀ b ∈ allPats n, Amp.normSq (gop (Gate.X t) f b) =
          Amp.normSq (f (flipPat t b)) := by
        intro b _
        simp only [gop]
      rw [sum_map_congr _ hpt]
      exact sum_allPats_reindex
        (fun b hb => by rw [flipPat_length]; exact hb)
        (fun b hb => flipPat_flipPat (by rw [hb]; exact hWF))
        (fun b => Amp.normSq (f b))
    | T t =>
      unfold normSqSum
      refine sum_map_congr _ ?_
      intro b _
      simp only [gop]
      by_cases hc : b.getD t false = true
      · rw [hc, if_pos rfl]
        exact normSq_mul_zeta (f b)
      · rw [Bool.not_eq_true] at hc
        rw [hc, if_neg Bool.false_ne_true]
    | TDgr t =>
      unfold normSqSum
      refine sum_map_congr _ ?_
      intro b _
      simp only [gop]
      by_cases hc : b.getD t false = true
      · rw [hc, if_pos rfl]
        exact normSq_mul_zetaConj (f b)
      · rw [Bool.not_eq_true] at hc
        rw [hc, if_neg Bool.false_ne_true]
    | CX c t =>
      unfold GateWF at hWF
      obtain ⟨hc, ht, hct⟩ := hWF
      unfold normSqSum
      have hpt : ∀ b ∈ allPats n, Amp.normSq (gop (Gate.CX c t) f b) =
          Amp.normSq (f (cxPat c t b)) := by
        intro b _
        simp only [gop]
      rw [sum_map_congr _ hpt]
      exact sum_allPats_reindex
        (fun b hb => by rw [cxPat_length]; exact hb)
        (fun b hb => cxPat_involutive hct (by rw [hb]; exact ht))
        (fun b => Amp.normSq (f b))
    | Toffoli cs t =>
      unfold GateWF at hWF
      obtain ⟨hcs, ht, hts⟩ := hWF
      unfold normSqSum
      have hpt : ∀ b ∈ allPats n, Amp.normSq (gop (Gate.Toffoli cs t) f b) =
          Amp.normSq (f (tofPat cs t b)) := by
        intro b _
        simp only [gop]
      rw [sum_map_congr _ hpt]
      exact sum_allPats_reindex
        (fun b hb => by rw [tofPat_length]; exact hb)
        (fun b hb => tofPat_involutive hts (by rw [hb]; exact ht))
        (fun b => Amp.normSq (f b))
    | Composite gs =>
      have hmem : ∀ g2 ∈ gs, ∀ f2 : List Bool → Amp,
          normSqSum (gop g2 f2) n = normSqSum f2 n := by
        intro g2 hg2 f2
        have h1 : sizeOf g2 < sizeOf gs := List.sizeOf_lt_of_mem hg2
        have h2 : sizeOf (Gate.Composite gs) = 1 + sizeOf gs := by simp
        refine ihN g2 (by omega) n ?_ f2
        have h3 := hWF
        unfold GateWF at h3
        exact h3 g2 hg2
      simp only [gop]
      exact gopList_isometry gs hmem f

/-- C4 amended: when no nonzero amplitude is dropped at the 1e-6 merge
tolerance (`DropFree`) and the gate is well formed for the register width
(operand indices in range, and the written qubit distinct from the control
qubits), `apply_gate_to_state` preserves the sum of squared amplitude
magnitudes exactly — not merely within a tolerance.  The claim as stated
is refuted by `C4_norm_preservation_counterexample`: a CX gate whose
control equals its target merges basis states (norm 2 becomes 4 with no
drop involved), and tolerance drops can erase an entire nonzero state. -/
theorem C4_norm_preservation (s s2 : State) (g : Gate)
    (hWF : GateWF g s.num_qubits)
    (hw : ∀ k ∈ s.kets, k.bits.length = s.num_qubits)
    (hinv : KetsInv s.kets) (hdf : DropFree s g = true)
    (happ : apply_gate_to_state s g = some s2) :
    stateNormSq s2.kets = stateNormSq s.kets := by
  obtain ⟨s3, hrun, hq, hwidth, hI, hamp⟩ := apply_sem hWF hw hdf
  rw [happ, Option.some_inj] at hrun
  subst hrun
  calc stateNormSq s2.kets = normSqSum (ampOf s2.kets) s.num_qubits :=
        stateNormSq_eq hI hwidth
    _ = normSqSum (gop g (ampOf s.kets)) s.num_qubits := by
        unfold normSqSum
        exact sum_map_congr _ (fun b hb => by
          rw [hamp b (allPats_mem_iff.mp hb)])
    _ = normSqSum (ampOf s.kets) s.num_qubits :=
        gop_isometry g s.num_qubits hWF (ampOf s.kets)
    _ = stateNormSq s.kets := (stateNormSq_eq hinv hw).symm

/-- Witness for C4: applying H to the 1-qubit ground state preserves the
squared-magnitude sum (it is 1 on both sides). -/
theorem C4_norm_preservation_witness :
    stateNormSq ([⟨Amp.invSqrt2, [false]⟩, ⟨Amp.invSqrt2, [true]⟩] : List Ket) =
      stateNormSq ([⟨1, [false]⟩] : List Ket) :=
  C4_norm_preservation ⟨[⟨1, [false]⟩], 1⟩
    ⟨[⟨Amp.invSqrt2, [false]⟩, ⟨Amp.invSqrt2, [true]⟩], 1⟩ (Gate.H 0)
    (by unfold GateWF; decide) (by decide) (by decide) (by decide) (by decide)

/-- C4 counterexample: the claim fails as stated.  (a) The degenerate
in-range gate CX{0,0} applied to the two-ket 1-qubit state with unit
amplitudes merges the two basis states: the squared-magnitude sum jumps
from 2 to 4, with no tolerance drop involved.  (b) The H{0} application to
a 2-qubit state of nonzero norm drops every produced amplitude at the 1e-6
tolerance, returning the empty state of norm 0 — a total relative loss. -/
theorem C4_norm_preservation_counterexample :
    (apply_gate_to_state ⟨[⟨1, [false]⟩, ⟨1, [true]⟩], 1⟩ (Gate.CX 0 0) =
        some ⟨[⟨⟨2, 0, 0, 0⟩, [false]⟩], 1⟩ ∧
      stateNormSq [(⟨1, [false]⟩ : Ket), ⟨1, [true]⟩] = (2, 0) ∧
      stateNormSq [(⟨⟨2, 0, 0, 0⟩, [false]⟩ : Ket)] = (4, 0)) ∧
    (apply_gate_to_state ⟨[⟨⟨3/5000000, 0, 0, 0⟩, [false, false]⟩,
        ⟨⟨3/5000000, 0, 0, 0⟩, [false, true]⟩,
        ⟨⟨3/5000000, 0, 0, 0⟩, [true, false]⟩,
        ⟨⟨3/5000000, 0, 0, 0⟩, [true, true]⟩], 2⟩ (Gate.H 0) = some ⟨[], 2⟩ ∧
      stateNormSq [(⟨⟨3/5000000, 0, 0, 0⟩, [false, false]⟩ : Ket),
        ⟨⟨3/5000000, 0, 0, 0⟩, [false, true]⟩,
        ⟨⟨3/5000000, 0, 0, 0⟩, [true, false]⟩,
        ⟨⟨3/5000000, 0, 0, 0⟩, [true, true]⟩] ≠ 0 ∧
      stateNormSq ([] : List Ket) = 0) := by
  refine ⟨⟨by decide, by decide, by decide⟩, by decide, by decide, by decide⟩

/-! ### C6 — Composite versus inlined fold -/

/-- Sequential state-level application of a gate list: the inlined fold
the spec compares Composite application against. -/
def foldApply : List Gate → State → Option State
  | [], s => some s
  | g :: rest, s =>
    match apply_gate_to_state s g with
    | some s2 => foldApply rest s2
    | none => none

/-- True when every step of the inlined fold is drop-free. -/
def foldOk : List Gate → State → Bool
  | [], _ => true
  | g :: rest, s =>
    DropFree s g &&
      match apply_gate_to_state s g with
      | some s2 => foldOk rest s2
      | none => false

/-! The equivalence between a Composite gate and its inlined fold needs no
distinctness of operand indices, only in-range bounds (`GateIR`): the
per-ket transform of every in-range gate succeeds, preserves widths, and
is linear in the input amplitude, so state-level application realizes a
matrix action (`act`) against the gate's unit-ket outputs, the same for
both evaluation orders. -/

/-- In-range operand indices (and nothing more): the hypothesis the claim
grants for state-level application. -/
def GateIR : Gate → ℕ → Prop
  | .H t, n => t < n
  | .X t, n => t < n
  | .T t, n => t < n
  | .TDgr t, n => t < n
  | .CX c t, n => c < n ∧ t < n
  | .Toffoli cs t, n => (∀ c ∈ cs, c < n) ∧ t < n
  | .Composite gs, n => ∀ g ∈ gs, GateIR g n
termination_by g _ => sizeOf g
decreasing_by
  have h1 : sizeOf g < sizeOf gs := List.sizeOf_lt_of_mem (by assumption)
  simp
  omega

/-- Scaling every amplitude of a ket list. -/
def scaleKets (a : Amp) (l : List Ket) : List Ket :=
  l.map fun j => ⟨a * j.amplitude, j.bits⟩

/-- The outputs of a gate on a unit-amplitude ket of the given pattern. -/
def unitOuts (g : Gate) (p : List Bool) : List Ket :=
  ((apply_gate_to_ket g ⟨1, p⟩).bind resultKets).getD []

/-- The inner pop-loop of the Composite branch, phrased directly on the
per-ket output lists. -/
def stageRevB (h : Ket → Option (List Ket)) : List Ket → Option (List Ket)
  | [] => some []
  | k :: rest =>
    match h k, stageRevB h rest with
    | some outL, some restL => some (outL ++ restL)
    | _, _ => none

theorem stageRevF_eq_B (f : Ket → Option GateKetResult) :
    ∀ L, stageRevF f L = stageRevB (fun k => (f k).bind resultKets) L := by
  intro L
  induction L with
  | nil => rfl
  | cons k rest ih =>
    simp only [stageRevF, stageRevB]
    cases hfk : f k with
    | none =>
      cases stageRevB (fun k => (f k).bind resultKets) rest <;> rfl
    | some r =>
      simp only [Option.some_bind]
      cases hres : resultKets r with
      | none =>
        cases stageRevB (fun k => (f k).bind resultKets) rest <;> rfl
      | some outL =>
        rw [ih]

theorem stageRevB_ex {h : Ket → Option (List Ket)} {n : ℕ}
    (hh : ∀ j : Ket, j.bits.length = n →
      ∃ outs, h j = some outs ∧ ∀ x ∈ outs, x.bits.length = n) :
    ∀ L, (∀ k ∈ L, k.bits.length = n) →
      ∃ out, stageRevB h L = some out ∧ ∀ x ∈ out, x.bits.length = n := by
  intro L
  induction L with
  | nil =>
    intro _
    exact ⟨[], rfl, by simp⟩
  | cons k rest ihl =>
    intro hw
    obtain ⟨out1, hout1, hw1⟩ := hh k (hw k (by simp))
    obtain ⟨outr, houtr, hwr⟩ := ihl (fun x hx => hw x (by simp [hx]))
    refine ⟨out1 ++ outr, ?_, ?_⟩
    · simp only [stageRevB, hout1, houtr]
    · intro x hx
      rcases List.mem_append.mp hx with hx | hx
      · exact hw1 x hx
      · exact hwr x hx

theorem runStages_ex {n : ℕ} : ∀ (gs : List Gate),
    (∀ g ∈ gs, ∀ j : Ket, j.bits.length = n →
      ∃ outs, (apply_gate_to_ket g j).bind resultKets = some outs ∧
        ∀ x ∈ outs, x.bits.length = n) →
    ∀ cur, (∀ k ∈ cur, k.bits.length = n) →
      ∃ out, runStages gs cur = some out ∧ ∀ x ∈ out, x.bits.length = n := by
  intro gs
  induction gs with
  | nil =>
    intro _ cur hcur
    exact ⟨cur, by simp [runStages, runStagesF], hcur⟩
  | cons g rest ih =>
    intro hh cur hcur
    obtain ⟨out1, hout1, hw1⟩ := stageRevB_ex (hh g (by simp)) cur.reverse
      (fun x hx => hcur x (List.mem_reverse.mp hx))
    obtain ⟨out2, hout2, hw2⟩ := ih (fun g2 hg2 => hh g2 (by simp [hg2])) out1 hw1
    refine ⟨out2, ?_, hw2⟩
    unfold runStages runStagesF
    rw [stageRevF_eq_B, hout1]
    unfold runStages at hout2
    exact hout2

/-- Every in-range gate application on a width-consistent ket succeeds
and produces width-consistent outputs — no distinctness of operands is
needed. -/
theorem applyKet_ir : ∀ (g : Gate) (n : ℕ), GateIR g n → ∀ k : Ket,
    k.bits.length = n →
    ∃ outs, (apply_gate_to_ket g k).bind resultKets = some outs ∧
      ∀ x ∈ outs, x.bits.length = n := by
  suffices hs : ∀ (N : ℕ) (g : Gate), sizeOf g < N → ∀ (n : ℕ), GateIR g n →
      ∀ k : Ket, k.bits.length = n →
      ∃ outs, (apply_gate_to_ket g k).bind resultKets = some outs ∧
        ∀ x ∈ outs, x.bits.length = n from
    fun g n h k hk => hs (sizeOf g + 1) g (by omega) n h k hk
  intro N
  induction N with
  | zero =>
    intro g hg
    omega
  | succ M ihN =>
    intro g hg n hIR k hk
    cases g with
    | H t =>
      unfold GateIR at hIR
      rw [apply_H_eq (by rw [hk]; exact hIR)]
      refine ⟨_, rfl, ?_⟩
      intro x hx
      rcases List.mem_cons.mp hx with hx | hx
      · rw [hx]
        exact hk
      · rw [List.mem_singleton] at hx
        rw [hx]
        show (flipPat t k.bits).length = n
        rw [flipPat_length]
        exact hk
    | X t =>
      unfold GateIR at hIR
      rw [apply_X_eq (by rw [hk]; exact hIR)]
      refine ⟨_, rfl, ?_⟩
      intro x hx
      rw [List.mem_singleton] at hx
      rw [hx]
      show (flipPat t k.bits).length = n
      rw [flipPat_length]
      exact hk
    | T t =>
      unfold GateIR at hIR
      rw [apply_T_eq (by rw [hk]; exact hIR)]
      refine ⟨_, rfl, ?_⟩
      intro x hx
      rw [List.mem_singleton] at hx
      rw [hx]
      by_cases hb : k.bits.getD t false = true
      · rw [if_pos hb]
        exact hk
      · rw [if_neg hb]
        exact hk
    | TDgr t =>
      unfold GateIR at hIR
      rw [apply_TDgr_eq (by rw [hk]; exact hIR)]
      refine ⟨_, rfl, ?_⟩
      intro x hx
      rw [List.mem_singleton] at hx
      rw [hx]
      by_cases hb : k.bits.getD t false = true
      · rw [if_pos hb]
        exact hk
      · rw [if_neg hb]
        exact hk
    | CX c t =>
      unfold GateIR at hIR
      rw [apply_CX_eq (by rw [hk]; exact hIR.1) (by rw [hk]; exact hIR.2)]
      refine ⟨_, rfl, ?_⟩
      intro x hx
      rw [List.mem_singleton] at hx
      rw [hx]
      show (cxPat c t k.bits).length = n
      rw [cxPat_length]
      exact hk
    | Toffoli cs t =>
      unfold GateIR at hIR
      rw [apply_Toffoli_eq (fun c hc => by rw [hk]; exact hIR.1 c hc)
        (by rw [hk]; exact hIR.2)]
      refine ⟨_, rfl, ?_⟩
      intro x hx
      rw [List.mem_singleton] at hx
      rw [hx]
      show (tofPat cs t k.bits).length = n
      rw [tofPat_length]
      exact hk
    | Composite gs =>
      have hIRm : ∀ g2 ∈ gs, GateIR g2 n := by
        have h2 := hIR
        unfold GateIR at h2
        exact h2
      have hmem : ∀ g2 ∈ gs, ∀ j : Ket, j.bits.length = n →
          ∃ outs, (apply_gate_to_ket g2 j).bind resultKets = some outs ∧
            ∀ x ∈ outs, x.bits.length = n := by
        intro g2 hg2 j hj
        have h1 : sizeOf g2 < sizeOf gs := List.sizeOf_lt_of_mem hg2
        have h2 : sizeOf (Gate.Composite gs) = 1 + sizeOf gs := by simp
        exact ihN g2 (by omega) n (hIRm g2 hg2) j hj
      obtain ⟨out, hout, hwout⟩ := runStages_ex gs hmem [k]
        (by intro x hx; rw [List.mem_singleton] at hx; rw [hx]; exact hk)
      refine ⟨out, ?_, hwout⟩
      rw [apply_composite_eq, hout]
      cases out with
      | nil => rfl
      | cons k1 tl =>
        cases tl with
        | nil => rfl
        | cons k2 tl2 => rfl

theorem stageRevB_scale {h : Ket → Option (List Ket)} {a : Amp} {n : ℕ}
    (hh : ∀ j : Ket, j.bits.length = n →
      h ⟨a * j.amplitude, j.bits⟩ = Option.map (scaleKets a) (h j)) :
    ∀ L, (∀ k ∈ L, k.bits.length = n) →
      stageRevB h (scaleKets a L) = Option.map (scaleKets a) (stageRevB h L) := by
  intro L
  induction L with
  | nil =>
    intro _
    rfl
  | cons k rest ih =>
    intro hw
    show stageRevB h (⟨a * k.amplitude, k.bits⟩ :: scaleKets a rest) = _
    simp only [stageRevB]
    rw [hh k (hw k (by simp)), ih (fun x hx => hw x (by simp [hx]))]
    cases h k with
    | none =>
      cases stageRevB h rest <;> rfl
    | some outL =>
      cases stageRevB h rest with
      | none => rfl
      | some restL =>
        show some (scaleKets a outL ++ scaleKets a restL) =
          some (scaleKets a (outL ++ restL))
        rw [show scaleKets a outL ++ scaleKets a restL = scaleKets a (outL ++ restL)
          from (List.map_append _ _ _).symm]

theorem runStages_scale {n : ℕ} {a : Amp} : ∀ (gs : List Gate),
    (∀ g ∈ gs, ∀ j : Ket, j.bits.length = n →
      ∃ outs, (apply_gate_to_ket g j).bind resultKets = some outs ∧
        ∀ x ∈ outs, x.bits.length = n) →
    (∀ g ∈ gs, ∀ j : Ket, j.bits.length = n →
      (apply_gate_to_ket g ⟨a * j.amplitude, j.bits⟩).bind resultKets =
        Option.map (scaleKets a) ((apply_gate_to_ket g j).bind resultKets)) →
    ∀ cur, (∀ k ∈ cur, k.bits.length = n) →
      runStages gs (scaleKets a cur) = Option.map (scaleKets a) (runStages gs cur) := by
  intro gs
  induction gs with
  | nil =>
    intro _ _ cur _
    rfl
  | cons g rest ih =>
    intro hex hsc cur hcur
    unfold runStages runStagesF
    rw [stageRevF_eq_B, stageRevF_eq_B]
    have hrev : (scaleKets a cur).reverse = scaleKets a cur.reverse := by
      unfold scaleKets
      exact (List.map_reverse _ _).symm
    rw [hrev, stageRevB_scale (fun j hj => hsc g (by simp) j hj) cur.reverse
      (fun x hx => hcur x (List.mem_reverse.mp hx))]
    cases hst : stageRevB (fun j => (apply_gate_to_ket g j).bind resultKets)
        cur.reverse with
    | none => rfl
    | some next =>
      obtain ⟨out1, hout1, hw1⟩ := stageRevB_ex (fun j hj => hex g (by simp) j hj)
        cur.reverse (fun x hx => hcur x (List.mem_reverse.mp hx))
      rw [hout1] at hst
      have hnext : next = out1 := (Option.some_inj.mp hst).symm
      subst hnext
      have hrec := ih (fun g2 hg2 => hex g2 (by simp [hg2]))
        (fun g2 hg2 => hsc g2 (by simp [hg2])) next hw1
      unfold runStages at hrec
      exact hrec

/-- The per-ket transform of every in-range gate is homogeneous: scaling
the input amplitude scales every output amplitude. -/
theorem applyKet_scale : ∀ (g : Gate) (n : ℕ), GateIR g n → ∀ (a : Amp) (k : Ket),
    k.bits.length = n →
    (apply_gate_to_ket g ⟨a * k.amplitude, k.bits⟩).bind resultKets =
      Option.map (scaleKets a) ((apply_gate_to_ket g k).bind resultKets) := by
  suffices hs : ∀ (N : ℕ) (g : Gate), sizeOf g < N → ∀ (n : ℕ), GateIR g n →
      ∀ (a : Amp) (k : Ket), k.bits.length = n →
      (apply_gate_to_ket g ⟨a * k.amplitude, k.bits⟩).bind resultKets =
        Option.map (scaleKets a) ((apply_gate_to_ket g k).bind resultKets) from
    fun g n h a k hk => hs (sizeOf g + 1) g (by omega) n h a k hk
  intro N
  induction N with
  | zero =>
    intro g hg
    omega
  | succ M ihN =>
    intro g hg n hIR a k hk
    cases g with
    | H t =>
      unfold GateIR at hIR
      have ht : t < k.bits.length := by rw [hk]; exact hIR
      rw [apply_H_eq (k := ⟨a * k.amplitude, k.bits⟩) ht, apply_H_eq ht]
      dsimp only [Option.some_bind, resultKets, Option.map_some']
      by_cases hb : k.bits.getD t false = true
      · rw [if_pos hb, if_pos hb,
          show a * k.amplitude * (-1) * Amp.invSqrt2 =
            a * (k.amplitude * (-1) * Amp.invSqrt2) from by ring,
          show a * k.amplitude * Amp.invSqrt2 =
            a * (k.amplitude * Amp.invSqrt2) from by ring]
        rfl
      · rw [if_neg hb, if_neg hb,
          show a * k.amplitude * Amp.invSqrt2 =
            a * (k.amplitude * Amp.invSqrt2) from by ring]
        rfl
    | X t =>
      unfold GateIR at hIR
      have ht : t < k.bits.length := by rw [hk]; exact hIR
      rw [apply_X_eq (k := ⟨a * k.amplitude, k.bits⟩) ht, apply_X_eq ht]
      rfl
    | T t =>
      unfold GateIR at hIR
      have ht : t < k.bits.length := by rw [hk]; exact hIR
      rw [apply_T_eq (k := ⟨a * k.amplitude, k.bits⟩) ht, apply_T_eq ht]
      dsimp only [Option.some_bind, resultKets, Option.map_some']
      by_cases hb : k.bits.getD t false = true
      · rw [if_pos hb, if_pos hb,
          show a * k.amplitude * Amp.zeta = a * (k.amplitude * Amp.zeta) from by ring]
        rfl
      · rw [if_neg hb, if_neg hb]
        rfl
    | TDgr t =>
      unfold GateIR at hIR
      have ht : t < k.bits.length := by rw [hk]; exact hIR
      rw [apply_TDgr_eq (k := ⟨a * k.amplitude, k.bits⟩) ht, apply_TDgr_eq ht]
      dsimp only [Option.some_bind, resultKets, Option.map_some']
      by_cases hb : k.bits.getD t false = true
      · rw [if_pos hb, if_pos hb,
          show a * k.amplitude * Amp.zetaConj = a * (k.amplitude * Amp.zetaConj)
            from by ring]
        rfl
      · rw [if_neg hb, if_neg hb]
        rfl
    | CX c t =>
      unfold GateIR at hIR
      have hc : c < k.bits.length := by rw [hk]; exact hIR.1
      have ht : t < k.bits.length := by rw [hk]; exact hIR.2
      rw [apply_CX_eq (k := ⟨a * k.amplitude, k.bits⟩) hc ht, apply_CX_eq hc ht]
      rfl
    | Toffoli cs t =>
      unfold GateIR at hIR
      have hcs : ∀ c ∈ cs, c < k.bits.length := fun c hcm => by
        rw [hk]
        exact hIR.1 c hcm
      have ht : t < k.bits.length := by rw [hk]; exact hIR.2
      rw [apply_Toffoli_eq (k := ⟨a * k.amplitude, k.bits⟩) hcs ht,
        apply_Toffoli_eq hcs ht]
      rfl
    | Composite gs =>
      have hIRm : ∀ g2 ∈ gs, GateIR g2 n := by
        have h2 := hIR
        unfold GateIR at h2
        exact h2
      have hexm : ∀ g2 ∈ gs, ∀ j : Ket, j.bits.length = n →
          ∃ outs, (apply_gate_to_ket g2 j).bind resultKets = some outs ∧
            ∀ x ∈ outs, x.bits.length = n :=
        fun g2 hg2 j hj => applyKet_ir g2 n (hIRm g2 hg2) j hj
      have hscm : ∀ g2 ∈ gs, ∀ j : Ket, j.bits.length = n →
          (apply_gate_to_ket g2 ⟨a * j.amplitude, j.bits⟩).bind resultKets =
            Option.map (scaleKets a) ((apply_gate_to_ket g2 j).bind resultKets) := by
        intro g2 hg2 j hj
        have h1 : sizeOf g2 < sizeOf gs := List.sizeOf_lt_of_mem hg2
        have h2 : sizeOf (Gate.Composite gs) = 1 + sizeOf gs := by simp
        exact ihN g2 (by omega) n (hIRm g2 hg2) a j hj
      have hrs := runStages_scale gs hexm hscm [k]
        (by intro x hx; rw [List.mem_singleton] at hx; rw [hx]; exact hk)
      rw [apply_composite_eq, apply_composite_eq]
      rw [show ([(⟨a * k.amplitude, k.bits⟩ : Ket)] : List Ket) = scaleKets a [k]
        from rfl, hrs]
      cases hr : runStages gs [k] with
      | none => rfl
      | some l =>
        cases l with
        | nil => rfl
        | cons x tl =>
          cases tl with
          | nil => rfl
          | cons y tl2 => rfl

theorem ampSum_map_congr {h1 h2 : List Bool → Amp} :
    ∀ l : List (List Bool), (∀ b ∈ l, h1 b = h2 b) →
      (l.map h1).sum = (l.map h2).sum := by
  intro l h
  rw [List.map_congr_left h]

theorem ampSum_map_add (l : List (List Bool)) (h1 h2 : List Bool → Amp) :
    (l.map fun p => h1 p + h2 p).sum = (l.map h1).sum + (l.map h2).sum := by
  induction l with
  | nil => simp
  | cons p rest ih =>
    simp only [List.map_cons, List.sum_cons, ih]
    ring

theorem ampSum_map_single : ∀ (l : List (List Bool)), l.Nodup →
    ∀ (b0 : List Bool), b0 ∈ l → ∀ (h : List Bool → Amp),
      (∀ b ∈ l, b ≠ b0 → h b = 0) → (l.map h).sum = h b0 := by
  intro l
  induction l with
  | nil =>
    intro _ b0 hb0
    cases hb0
  | cons c rest ih =>
    intro hnd b0 hb0 h hz
    have hna : c ∉ rest := (List.nodup_cons.mp hnd).1
    have hndr : rest.Nodup := (List.nodup_cons.mp hnd).2
    simp only [List.map_cons, List.sum_cons]
    rcases List.mem_cons.mp hb0 with heq | hmem
    · have hrest : (rest.map h).sum = 0 := by
        apply List.sum_eq_zero
        intro x hx
        rcases List.mem_map.mp hx with ⟨b, hb, hbe⟩
        rw [← hbe]
        exact hz b (by simp [hb]) (fun hbb0 => hna ((hbb0.trans heq) ▸ hb))
      rw [heq, hrest, add_zero]
    · have hc0 : h c = 0 :=
        hz c (by simp) (fun hcb0 => hna (by rw [hcb0]; exact hmem))
      rw [hc0, zero_add]
      exact ih hndr b0 hmem h (fun b hb hbb0 => hz b (by simp [hb]) hbb0)

theorem ampOf_scaleKets (a : Amp) (l : List Ket) (b : List Bool) :
    ampOf (scaleKets a l) b = a * ampOf l b := by
  induction l with
  | nil =>
    show ampOf ([] : List Ket) b = a * ampOf ([] : List Ket) b
    rw [ampOf_nil, mul_zero]
  | cons j rest ih =>
    show ampOf (⟨a * j.amplitude, j.bits⟩ :: scaleKets a rest) b = _
    rw [ampOf_cons, ampOf_cons, ih, mul_add]
    congr 1
    unfold ampDelta
    by_cases hjb : j.bits = b
    · rw [if_pos hjb, if_pos hjb]
    · rw [if_neg hjb, if_neg hjb, mul_zero]

/-- The linear action of one gate on amplitude functions, as a matrix
against the unit-ket outputs. -/
def act (g : Gate) (n : ℕ) (f : List Bool → Amp) : List Bool → Amp :=
  fun b => ((allPats n).map fun p => f p * ampOf (unitOuts g p) b).sum

/-- Left-to-right composition of `act` along a gate list. -/
def actList : List Gate → ℕ → (List Bool → Amp) → (List Bool → Amp)
  | [], _, f => f
  | g :: rest, n, f => actList rest n (act g n f)

theorem act_add (g : Gate) (n : ℕ) (f1 f2 : List Bool → Amp) (b : List Bool) :
    act g n (fun x => f1 x + f2 x) b = act g n f1 b + act g n f2 b := by
  unfold act
  rw [ampSum_map_congr _ (fun p _ => add_mul (f1 p) (f2 p) _), ampSum_map_add]

theorem act_zero (g : Gate) (n : ℕ) (b : List Bool) :
    act g n (fun _ => (0 : Amp)) b = 0 := by
  unfold act
  apply List.sum_eq_zero
  intro x hx
  rcases List.mem_map.mp hx with ⟨p, _, hpe⟩
  rw [← hpe, zero_mul]

theorem actList_add (gs : List Gate) (n : ℕ) :
    ∀ (f1 f2 : List Bool → Amp) (b : List Bool),
      actList gs n (fun x => f1 x + f2 x) b =
        actList gs n f1 b + actList gs n f2 b := by
  induction gs with
  | nil =>
    intro f1 f2 b
    rfl
  | cons g rest ih =>
    intro f1 f2 b
    simp only [actList]
    rw [show act g n (fun x => f1 x + f2 x) = fun x => act g n f1 x + act g n f2 x
      from funext (fun x => act_add g n f1 f2 x)]
    exact ih (act g n f1) (act g n f2) b

theorem actList_zero (gs : List Gate) (n : ℕ) (b : List Bool) :
    actList gs n (fun _ => (0 : Amp)) b = 0 := by
  induction gs generalizing b with
  | nil => rfl
  | cons g rest ih =>
    simp only [actList]
    rw [show act g n (fun _ => (0 : Amp)) = fun _ => (0 : Amp)
      from funext (fun x => act_zero g n x)]
    exact ih b

/-- A per-ket transform that succeeds on width-n kets and is homogeneous
in the amplitude acts linearly on the amplitude function of a whole
collection. -/
theorem stageRevB_formula {h : Ket → Option (List Ket)} {n : ℕ}
    (hex : ∀ j : Ket, j.bits.length = n →
      ∃ outs, h j = some outs ∧ ∀ x ∈ outs, x.bits.length = n)
    (hsc : ∀ (a : Amp) (j : Ket), j.bits.length = n →
      h ⟨a * j.amplitude, j.bits⟩ = Option.map (scaleKets a) (h j)) :
    ∀ L, (∀ k ∈ L, k.bits.length = n) →
      ∃ out, stageRevB h L = some out ∧ (∀ x ∈ out, x.bits.length = n) ∧
        ∀ b, ampOf out b =
          ((allPats n).map fun p => ampOf L p * ampOf ((h ⟨1, p⟩).getD []) b).sum := by
  intro L
  induction L with
  | nil =>
    intro _
    refine ⟨[], rfl, by simp, ?_⟩
    intro b
    rw [ampOf_nil]
    symm
    apply List.sum_eq_zero
    intro x hx
    rcases List.mem_map.mp hx with ⟨p, _, hpe⟩
    rw [← hpe, ampOf_nil, zero_mul]
  | cons k rest ih =>
    intro hw
    have hk : k.bits.length = n := hw k (by simp)
    obtain ⟨u, hu, hwu⟩ := hex ⟨1, k.bits⟩ hk
    have hscl := hsc k.amplitude ⟨1, k.bits⟩ hk
    rw [hu] at hscl
    have hkk : (⟨k.amplitude * 1, k.bits⟩ : Ket) = k := by rw [mul_one]
    rw [hkk] at hscl
    obtain ⟨outr, houtr, hwr, hfr⟩ := ih (fun x hx => hw x (by simp [hx]))
    refine ⟨scaleKets k.amplitude u ++ outr, ?_, ?_, ?_⟩
    · simp only [stageRevB, hscl, houtr]
      rfl
    · intro x hx
      rcases List.mem_append.mp hx with hx | hx
      · rcases List.mem_map.mp hx with ⟨j, hj, hje⟩
        rw [← hje]
        exact hwu j hj
      · exact hwr x hx
    · intro b
      rw [ampOf_append, ampOf_scaleKets, hfr b]
      have hcongr : ∀ p ∈ allPats n,
          ampOf (k :: rest) p * ampOf ((h ⟨1, p⟩).getD []) b =
            ampDelta k p * ampOf ((h ⟨1, p⟩).getD []) b +
              ampOf rest p * ampOf ((h ⟨1, p⟩).getD []) b := by
        intro p _
        rw [ampOf_cons, add_mul]
      rw [ampSum_map_congr _ hcongr, ampSum_map_add]
      have hdelta : ((allPats n).map fun p =>
          ampDelta k p * ampOf ((h ⟨1, p⟩).getD []) b).sum =
            k.amplitude * ampOf ((h ⟨1, k.bits⟩).getD []) b := by
        have hz : ∀ p ∈ allPats n, p ≠ k.bits →
            ampDelta k p * ampOf ((h ⟨1, p⟩).getD []) b = 0 := by
          intro p _ hp
          unfold ampDelta
          rw [if_neg (fun he => hp he.symm), zero_mul]
        have hpick := ampSum_map_single (allPats n) (allPats_nodup n) k.bits
          (allPats_mem_iff.mpr hk) _ hz
        rw [hpick]
        show ampDelta k k.bits * _ = _
        unfold ampDelta
        rw [if_pos rfl]
      rw [hdelta, hu]
      rfl

/-- `runStages` realizes the composed linear actions of its gate list. -/
theorem runStages_act {n : ℕ} : ∀ (gs : List Gate), (∀ g ∈ gs, GateIR g n) →
    ∀ L, (∀ k ∈ L, k.bits.length = n) →
      ∃ out, runStages gs L = some out ∧ (∀ x ∈ out, x.bits.length = n) ∧
        ∀ b, ampOf out b = actList gs n (ampOf L) b := by
  intro gs
  induction gs with
  | nil =>
    intro _ L hL
    exact ⟨L, by simp [runStages, runStagesF], hL, fun b => rfl⟩
  | cons g rest ih =>
    intro hIR L hL
    obtain ⟨out1, hout1, hw1, hf1⟩ := stageRevB_formula
      (fun j hj => applyKet_ir g n (hIR g (by simp)) j hj)
      (fun a j hj => applyKet_scale g n (hIR g (by simp)) a j hj)
      L.reverse (fun x hx => hL x (List.mem_reverse.mp hx))
    obtain ⟨out2, hout2, hw2, hf2⟩ := ih (fun g2 hg2 => hIR g2 (by simp [hg2])) out1 hw1
    refine ⟨out2, ?_, hw2, ?_⟩
    · unfold runStages runStagesF
      rw [stageRevF_eq_B, hout1]
      unfold runStages at hout2
      exact hout2
    · intro b
      rw [hf2 b]
      simp only [actList]
      rw [show ampOf out1 = act g n (ampOf L) from funext (fun x => by
        rw [hf1 x]
        show _ = act g n (ampOf L) x
        unfold act unitOuts
        refine ampSum_map_congr _ ?_
        intro p _
        rw [ampOf_reverse])]

/-- The per-ket pipeline of a Composite gate over a whole collection
realizes the composed linear actions. -/
theorem stageRevB_composite_act {gs : List Gate} {n : ℕ}
    (hIR : ∀ g ∈ gs, GateIR g n) :
    ∀ L, (∀ k ∈ L, k.bits.length = n) →
      ∃ out, stageRevB
          (fun j => (apply_gate_to_ket (Gate.Composite gs) j).bind resultKets) L =
          some out ∧ (∀ x ∈ out, x.bits.length = n) ∧
        ∀ b, ampOf out b = actList gs n (ampOf L) b := by
  intro L
  induction L with
  | nil =>
    intro _
    refine ⟨[], rfl, by simp, ?_⟩
    intro b
    rw [ampOf_nil,
      show (ampOf ([] : List Ket)) = fun _ => (0 : Amp) from
        funext (fun x => ampOf_nil x)]
    exact (actList_zero gs n b).symm
  | cons k rest ih =>
    intro hw
    have hk : k.bits.length = n := hw k (by simp)
    obtain ⟨outk, houtk, hwoutk, hfk⟩ := runStages_act gs hIR [k]
      (by intro x hx; rw [List.mem_singleton] at hx; rw [hx]; exact hk)
    have hTk : (apply_gate_to_ket (Gate.Composite gs) k).bind resultKets =
        some outk := by
      rw [apply_composite_eq, houtk]
      cases outk with
      | nil => rfl
      | cons k1 tl =>
        cases tl with
        | nil => rfl
        | cons k2 tl2 => rfl
    obtain ⟨outr, houtr, hwr, hfr⟩ := ih (fun x hx => hw x (by simp [hx]))
    refine ⟨outk ++ outr, ?_, ?_, ?_⟩
    · simp only [stageRevB, hTk, houtr]
    · intro x hx
      rcases List.mem_append.mp hx with hx | hx
      · exact hwoutk x hx
      · exact hwr x hx
    · intro b
      rw [ampOf_append, hfk b, hfr b,
        show ampOf (k :: rest) = fun x => ampOf [k] x + ampOf rest x from
          funext (fun x => by rw [ampOf_cons, ampOf_cons, ampOf_nil, add_zero]),
        actList_add gs n (ampOf [k]) (ampOf rest) b]

/-- The per-ket loop of `apply_gate_to_state`, against the concatenated
per-ket outputs, without any ideal-action hypotheses. -/
theorem applyKetsLoop_ampOf {g : Gate} {n : ℕ} (hIR : GateIR g n) :
    ∀ (l : List Ket) (acc : State), (∀ k ∈ l, k.bits.length = n) →
      (∀ x ∈ acc.kets, x.bits.length = n) → applyOkLoop g l acc = true →
      ∃ s2 out, applyKetsLoop g l acc = some s2 ∧
        stageRevB (fun j => (apply_gate_to_ket g j).bind resultKets) l = some out ∧
        s2.num_qubits = acc.num_qubits ∧ (∀ x ∈ s2.kets, x.bits.length = n) ∧
        ∀ b, ampOf s2.kets b = ampOf acc.kets b + ampOf out b := by
  intro l
  induction l with
  | nil =>
    intro acc _ hacc _
    refine ⟨acc, [], rfl, rfl, rfl, hacc, ?_⟩
    intro b
    rw [ampOf_nil, add_zero]
  | cons k rest ih =>
    intro acc hl hacc hok
    unfold applyOkLoop at hok
    cases hTk : (apply_gate_to_ket g k).bind resultKets with
    | none =>
      rw [hTk] at hok
      cases hok
    | some outL =>
      rw [hTk] at hok
      rw [Bool.and_eq_true] at hok
      obtain ⟨hok1, hok2⟩ := hok
      obtain ⟨outs2, houts2, hwouts⟩ := applyKet_ir g n hIR k (hl k (by simp))
      rw [hTk, Option.some_inj] at houts2
      subst houts2
      rcases Option.bind_eq_some.mp hTk with ⟨r, happ, hres⟩
      have hacc2 : ∀ x ∈ (outL.foldl State.add_or_insert acc).kets,
          x.bits.length = n := foldl_add_width hwouts hacc
      obtain ⟨s2, outr, hrun, hB, hq, hwk, hamp⟩ :=
        ih (outL.foldl State.add_or_insert acc)
          (fun x hx => hl x (by simp [hx])) hacc2 hok2
      refine ⟨s2, outL ++ outr, ?_, ?_, ?_, hwk, ?_⟩
      · simp only [applyKetsLoop, happ, hres]
        exact hrun
      · simp only [stageRevB, hTk, hB]
      · rw [hq, foldl_add_num_qubits]
      · intro b
        rw [hamp b, ampOf_foldl_inserts hok1, ampOf_append]
        ring

/-- Drop-free in-range state-level application realizes the gate's linear
action and keeps the storage invariants. -/
theorem apply_gate_act {s : State} {g : Gate} (hIR : GateIR g s.num_qubits)
    (hlen : ∀ k ∈ s.kets, k.bits.length = s.num_qubits)
    (hdf : DropFree s g = true) :
    ∃ s2, apply_gate_to_state s g = some s2 ∧ s2.num_qubits = s.num_qubits ∧
      (∀ x ∈ s2.kets, x.bits.length = s.num_qubits) ∧ KetsInv s2.kets ∧
      ∀ b, ampOf s2.kets b = act g s.num_qubits (ampOf s.kets) b := by
  obtain ⟨s2, out, hrun, hB, hq, hwk, hamp⟩ :=
    applyKetsLoop_ampOf hIR s.kets (State.new s.num_qubits) hlen
      (by simp [State.new]) hdf
  obtain ⟨out2, hB2, _, hf2⟩ := stageRevB_formula
    (fun j hj => applyKet_ir g s.num_qubits hIR j hj)
    (fun a j hj => applyKet_scale g s.num_qubits hIR a j hj) s.kets hlen
  rw [hB, Option.some_inj] at hB2
  subst hB2
  refine ⟨s2, hrun, by rw [hq]; rfl, hwk, KetsInv_applyKetsLoop
    ⟨by simp [State.new], by simp [State.new]⟩ hrun, ?_⟩
  intro b
  rw [hamp b]
  show ampOf ([] : List Ket) b + ampOf out b = _
  rw [ampOf_nil, zero_add, hf2 b]
  unfold act unitOuts
  rfl

/-- Drop-free in-range Composite application realizes the composed linear
actions of its constituents. -/
theorem apply_composite_act {s : State} {gs : List Gate}
    (hIR : ∀ g ∈ gs, GateIR g s.num_qubits)
    (hlen : ∀ k ∈ s.kets, k.bits.length = s.num_qubits)
    (hdf : DropFree s (Gate.Composite gs) = true) :
    ∃ s2, apply_gate_to_state s (Gate.Composite gs) = some s2 ∧
      s2.num_qubits = s.num_qubits ∧
      (∀ x ∈ s2.kets, x.bits.length = s.num_qubits) ∧ KetsInv s2.kets ∧
      ∀ b, ampOf s2.kets b = actList gs s.num_qubits (ampOf s.kets) b := by
  have hIRc : GateIR (Gate.Composite gs) s.num_qubits := by
    unfold GateIR
    exact hIR
  obtain ⟨s2, out, hrun, hB, hq, hwk, hamp⟩ :=
    applyKetsLoop_ampOf hIRc s.kets (State.new s.num_qubits) hlen
      (by simp [State.new]) hdf
  obtain ⟨out2, hB2, _, hf2⟩ := stageRevB_composite_act hIR s.kets hlen
  rw [hB, Option.some_inj] at hB2
  subst hB2
  refine ⟨s2, hrun, by rw [hq]; rfl, hwk, KetsInv_applyKetsLoop
    ⟨by simp [State.new], by simp [State.new]⟩ hrun, ?_⟩
  intro b
  rw [hamp b]
  show ampOf ([] : List Ket) b + ampOf out b = _
  rw [ampOf_nil, zero_add, hf2 b]

/-- A drop-free fold of in-range gates realizes the composed linear
actions and keeps the storage invariants. -/
theorem foldApply_act {n : ℕ} : ∀ (gs : List Gate) (s sf : State),
    s.num_qubits = n → (∀ g ∈ gs, GateIR g n) →
    (∀ k ∈ s.kets, k.bits.length = n) → KetsInv s.kets →
    foldOk gs s = true → foldApply gs s = some sf →
    sf.num_qubits = n ∧ (∀ k ∈ sf.kets, k.bits.length = n) ∧ KetsInv sf.kets ∧
      ∀ b, ampOf sf.kets b = actList gs n (ampOf s.kets) b := by
  intro gs
  induction gs with
  | nil =>
    intro s sf hq _ hw hinv _ happ
    unfold foldApply at happ
    cases happ
    exact ⟨hq, hw, hinv, fun b => rfl⟩
  | cons g rest ih =>
    intro s sf hq hIR hw hinv hok happ
    unfold foldOk at hok
    rw [Bool.and_eq_true] at hok
    obtain ⟨hok1, hok2⟩ := hok
    unfold foldApply at happ
    cases hint : apply_gate_to_state s g with
    | none =>
      rw [hint] at happ
      cases happ
    | some s1 =>
      rw [hint] at happ hok2
      obtain ⟨s3, hrun, hq3, hw3, hI3, hamp3⟩ :=
        apply_gate_act (s := s) (g := g)
          (by rw [hq]; exact hIR g (by simp)) (by rw [hq]; exact hw) hok1
      rw [hint, Option.some_inj] at hrun
      subst hrun
      have hIRr : ∀ g2 ∈ rest, GateIR g2 n := fun g2 hg2 => hIR g2 (by simp [hg2])
      have hq1 : s1.num_qubits = n := by rw [hq3, hq]
      have hw1 : ∀ k ∈ s1.kets, k.bits.length = n := by
        intro k hk
        rw [← hq]
        exact hw3 k hk
      obtain ⟨hfq, hfw, hfI, hfamp⟩ := ih s1 sf hq1 hIRr hw1 hI3 hok2 happ
      refine ⟨hfq, hfw, hfI, ?_⟩
      intro b
      rw [hfamp b]
      simp only [actList]
      rw [show ampOf s1.kets = act g n (ampOf s.kets) from
        funext (fun x => by rw [hamp3 x, hq])]

/-- C6 amended: a Composite gate applied in one shot is equivalent (in the
are_equivalent sense) to the inlined fold of its constituent gates,
whenever the operand indices are in range and neither evaluation drops a
nonzero accumulated amplitude at the 1e-6 merge tolerance; without the
drop-free proviso the two can differ, because the composite merges per-ket
pipeline outputs into the state only once at the end, while the fold
re-merges after every constituent gate
(`C6_composite_fold_counterexample`). -/
theorem C6_composite_fold (s : State) (gs : List Gate)
    (hIR : ∀ g ∈ gs, GateIR g s.num_qubits)
    (hw : ∀ k ∈ s.kets, k.bits.length = s.num_qubits)
    (hinv : KetsInv s.kets)
    (sc sf : State)
    (hdc : DropFree s (Gate.Composite gs) = true)
    (hc : apply_gate_to_state s (Gate.Composite gs) = some sc)
    (hdf : foldOk gs s = true)
    (hf : foldApply gs s = some sf) :
    State.are_equivalent sc sf = true := by
  obtain ⟨s3, hrun, hq3, hw3, hI3, hamp3⟩ := apply_composite_act hIR hw hdc
  rw [hc, Option.some_inj] at hrun
  subst hrun
  obtain ⟨hfq, hfw, hfI, hfamp⟩ := foldApply_act gs s sf rfl hIR hw hinv hdf hf
  have hampeq : ∀ b, b.length = s.num_qubits →
      ampOf sc.kets b = ampOf sf.kets b := by
    intro b _
    rw [hamp3 b, hfamp b]
  have hE := are_equivalent_of_ampOf_eq hI3 hfI hw3 hfw hampeq
  have hc2 : sc = (⟨sc.kets, s.num_qubits⟩ : State) := by
    ext
    · rfl
    · exact hq3
  have hf2 : sf = (⟨sf.kets, s.num_qubits⟩ : State) := by
    ext
    · rfl
    · exact hfq
  rw [hc2, hf2]
  exact hE

/-- Witness for C6 at the claim's concrete scenario: Composite [X0, X1]
on the all-zero 2-qubit state is equivalent to the inlined fold result,
and that result is exactly the state from_ket_vec builds from bits=(1,1)
with amplitude 1. -/
theorem C6_composite_fold_witness :
    State.are_equivalent ⟨[⟨1, [true, true]⟩], 2⟩ ⟨[⟨1, [true, true]⟩], 2⟩ =
        true ∧
      State.from_ket_vec [⟨1, [true, true]⟩] =
        Except.ok ⟨[⟨1, [true, true]⟩], 2⟩ :=
  ⟨C6_composite_fold ⟨[⟨1, [false, false]⟩], 2⟩ [Gate.X 0, Gate.X 1]
      (by
        intro g hg
        rcases List.mem_cons.mp hg with h | h
        · rw [h]
          unfold GateIR
          decide
        · rw [List.mem_singleton] at h
          rw [h]
          unfold GateIR
          decide)
      (by decide) (by decide) ⟨[⟨1, [true, true]⟩], 2⟩ ⟨[⟨1, [true, true]⟩], 2⟩
      (by decide) (by decide) (by decide) (by decide),
    by rfl⟩

/-- C6 counterexample: on the 1-qubit state with amplitude 1e-6 on each of
the two patterns, Composite [H0, H0] returns the empty state — the per-ket
pipeline defers state-level merging to the end, and each merged amplitude
then lands exactly at the 1e-6 tolerance and is dropped — while the
inlined fold (H0 applied twice at state level) returns the original state;
the two results are not equivalent. -/
theorem C6_composite_fold_counterexample :
    apply_gate_to_state
        ⟨[⟨⟨1/1000000, 0, 0, 0⟩, [false]⟩, ⟨⟨1/1000000, 0, 0, 0⟩, [true]⟩], 1⟩
        (Gate.Composite [Gate.H 0, Gate.H 0]) = some ⟨[], 1⟩ ∧
      foldApply [Gate.H 0, Gate.H 0]
        ⟨[⟨⟨1/1000000, 0, 0, 0⟩, [false]⟩, ⟨⟨1/1000000, 0, 0, 0⟩, [true]⟩], 1⟩ =
        some ⟨[⟨⟨1/1000000, 0, 0, 0⟩, [false]⟩,
          ⟨⟨1/1000000, 0, 0, 0⟩, [true]⟩], 1⟩ ∧
      State.are_equivalent ⟨[], 1⟩
        ⟨[⟨⟨1/1000000, 0, 0, 0⟩, [false]⟩, ⟨⟨1/1000000, 0, 0, 0⟩, [true]⟩], 1⟩ =
        false := by
  refine ⟨by decide, by decide, by decide⟩

end QuantumSim
